import Mathlib

/-!
# J2ME game rename tool (`JavaGameRename.go`): embedding and verified properties

Go strings are byte sequences, so a string is modelled as a list of bytes.
The standard-library functions the program calls (`strings.ReplaceAll`,
`strings.Trim`, `strings.Split`, `strings.Index`, `strings.LastIndex`,
`strings.ToLower`, the `range` loop over a string, `unicode.Is`) are
modelled by their documented behaviour on the arguments the program gives
them; the functions of the program itself are translated line by line.
-/

namespace JavaGameRename

/-! ## Strings -/

/-- A Go `byte`. -/
abbrev Byte := Fin 256

/-- A Go `string`: an immutable sequence of bytes (not necessarily valid UTF-8). -/
abbrev GoString := List Byte

/-- The rune `utf8.RuneError`, U+FFFD. A Go `rune` is a code point; the runes
of this program are never negative and are modelled as natural numbers. -/
def RuneError : Nat := 0xFFFD

/-- The function `utf8.EncodeRune`: the UTF-8 bytes of a rune; surrogates and
values above U+10FFFF are encoded as U+FFFD. -/
def encodeRune (r : Nat) : GoString :=
  if r < 0x80 then [Fin.ofNat r]
  else if r < 0x800 then [Fin.ofNat (0xC0 + r / 64), Fin.ofNat (0x80 + r % 64)]
  else if r > 0x10FFFF ∨ (0xD800 ≤ r ∧ r ≤ 0xDFFF) then [0xEF, 0xBF, 0xBD]
  else if r < 0x10000 then
    [Fin.ofNat (0xE0 + r / 4096), Fin.ofNat (0x80 + r / 64 % 64), Fin.ofNat (0x80 + r % 64)]
  else
    [Fin.ofNat (0xF0 + r / 262144), Fin.ofNat (0x80 + r / 4096 % 64),
      Fin.ofNat (0x80 + r / 64 % 64), Fin.ofNat (0x80 + r % 64)]

/-- A Go string literal: the UTF-8 encoding of its text. -/
def lit (s : String) : GoString :=
  s.toList.flatMap (fun c => encodeRune c.toNat)

/-- The function `strings.HasPrefix`. -/
def HasPrefix : GoString → GoString → Bool
  | _, [] => true
  | [], _ :: _ => false
  | c :: s, p :: ps => c == p && HasPrefix s ps

/-- The function `strings.Index`: the index of the first instance of `substr`
in `s`, or `-1` when there is none. -/
def Index : GoString → GoString → Int
  | [], substr => if substr = [] then 0 else -1
  | c :: s, substr =>
    if HasPrefix (c :: s) substr then 0
    else
      let i := Index s substr
      if i = -1 then -1 else i + 1

/-- The function `strings.LastIndex`: the index of the last instance of
`substr` in `s`, or `-1` when there is none. -/
def LastIndex : GoString → GoString → Int
  | [], substr => if substr = [] then 0 else -1
  | c :: s, substr =>
    let i := LastIndex s substr
    if i ≠ -1 then i + 1
    else if HasPrefix (c :: s) substr then 0 else -1

/-- The scan of `strings.ReplaceAll s old new` for a non-empty `old`: the
first argument counts the bytes of the current match still to be skipped. -/
def replaceFrom (old new : GoString) : Nat → GoString → GoString
  | _, [] => []
  | k + 1, _ :: s => replaceFrom old new k s
  | 0, c :: s =>
    if HasPrefix (c :: s) old then new ++ replaceFrom old new (old.length - 1) s
    else c :: replaceFrom old new 0 s

/-- The function `strings.ReplaceAll` for a non-empty `old` (every call of
the program passes a non-empty literal): all non-overlapping instances of
`old`, found from left to right, are replaced by `new`. -/
def ReplaceAll (s old new : GoString) : GoString :=
  replaceFrom old new 0 s

/-- The function `strings.TrimLeft` for a cutset of ASCII bytes. -/
def TrimLeft (s cutset : GoString) : GoString :=
  s.dropWhile (fun b => decide (b ∈ cutset))

/-- The function `strings.TrimRight` for a cutset of ASCII bytes. -/
def TrimRight (s cutset : GoString) : GoString :=
  (s.reverse.dropWhile (fun b => decide (b ∈ cutset))).reverse

/-- The function `strings.Trim` for a cutset of ASCII bytes (every call of
the program passes an ASCII literal): leading and trailing bytes that occur in
`cutset` are removed. -/
def Trim (s cutset : GoString) : GoString :=
  TrimLeft (TrimRight s cutset) cutset

/-- The scan of `strings.Split s sep` for a non-empty `sep`: the first
argument counts the bytes of the current separator still to be skipped. -/
def splitFrom (sep : GoString) : Nat → GoString → List GoString
  | _, [] => [[]]
  | k + 1, _ :: s => splitFrom sep k s
  | 0, c :: s =>
    if HasPrefix (c :: s) sep then [] :: splitFrom sep (sep.length - 1) s
    else
      match splitFrom sep 0 s with
      | [] => [[c]]
      | seg :: segs => (c :: seg) :: segs

/-- The function `strings.Split` for a non-empty `sep`: the substrings
between the instances of `sep`; always at least one element. -/
def Split (s sep : GoString) : List GoString :=
  splitFrom sep 0 s

/-! ## `NormalizationName` (lines 102-110) -/

/-- The function `NormalizationName`. -/
def NormalizationName (str : GoString) : GoString :=
  let str := ReplaceAll str (lit "MIDlet-Name:") (lit "")
  let str := ReplaceAll str (lit "MIDlet-Description:") (lit "")
  let str := Trim str (lit " \r\n\\:")
  let str := ReplaceAll str (lit ":") (lit "")
  let str := ReplaceAll str (lit "?") (lit "")
  let str := ReplaceAll str (lit "*") (lit "")
  str

/-! ## The `range` loop over a string -/

/-- The decoding of a two-byte encoding with first byte `s0`, `0xC2`-`0xDF`, from the
bytes after it. The mask `s0 & 0x1F` is `s0 % 32`, a shift by six bits is a
multiplication by 64. -/
def decode2 (s0 : Nat) : GoString → Nat × Nat
  | s1 :: _ =>
    if s1.val < 0x80 ∨ 0xBF < s1.val then (RuneError, 1)
    else (s0 % 32 * 64 + s1.val % 64, 2)
  | [] => (RuneError, 1)

/-- The decoding of a three-byte encoding with first byte `s0`, `0xE0`-`0xEF`;
the second byte has to be in the accept range `lo`-`hi` of the first byte. -/
def decode3 (s0 lo hi : Nat) : GoString → Nat × Nat
  | s1 :: s2 :: _ =>
    if s1.val < lo ∨ hi < s1.val then (RuneError, 1)
    else if s2.val < 0x80 ∨ 0xBF < s2.val then (RuneError, 1)
    else (s0 % 16 * 4096 + s1.val % 64 * 64 + s2.val % 64, 3)
  | _ => (RuneError, 1)

/-- The decoding of a four-byte encoding with first byte `s0`, `0xF0`-`0xF4`;
the second byte has to be in the accept range `lo`-`hi` of the first byte. -/
def decode4 (s0 lo hi : Nat) : GoString → Nat × Nat
  | s1 :: s2 :: s3 :: _ =>
    if s1.val < lo ∨ hi < s1.val then (RuneError, 1)
    else if s2.val < 0x80 ∨ 0xBF < s2.val then (RuneError, 1)
    else if s3.val < 0x80 ∨ 0xBF < s3.val then (RuneError, 1)
    else (s0 % 8 * 262144 + s1.val % 64 * 4096 + s2.val % 64 * 64 + s3.val % 64, 4)
  | _ => (RuneError, 1)

/-- The function `utf8.DecodeRuneInString`, which the `range` loop over a
string applies at each position: the rune at the start of `s` and its width in
bytes; an invalid or incomplete encoding gives `(RuneError, 1)`. The accept
ranges of the second byte exclude overlong encodings, surrogates and values
above U+10FFFF. -/
def decodeRune : GoString → Nat × Nat
  | [] => (RuneError, 0)
  | s0 :: t =>
    if s0.val < 0x80 then (s0.val, 1)
    else if s0.val < 0xC2 ∨ 0xF4 < s0.val then (RuneError, 1)
    else if s0.val < 0xE0 then decode2 s0.val t
    else if s0.val < 0xF0 then
      decode3 s0.val (if s0.val = 0xE0 then 0xA0 else 0x80) (if s0.val = 0xED then 0x9F else 0xBF) t
    else
      decode4 s0.val (if s0.val = 0xF0 then 0x90 else 0x80) (if s0.val = 0xF4 then 0x8F else 0xBF) t

/-- The runes a `range` loop yields from a position of the string: the first
argument counts the bytes of the current rune still to be skipped. -/
def rangeFrom : Nat → GoString → List Nat
  | _, [] => []
  | k + 1, _ :: s => rangeFrom k s
  | 0, c :: s => (decodeRune (c :: s)).1 :: rangeFrom ((decodeRune (c :: s)).2 - 1) s

/-- The sequence of runes `for _, r := range str` iterates over. -/
def runes (str : GoString) : List Nat :=
  rangeFrom 0 str

/-! ## `HasChineseChar` (lines 93-100) -/

/-- The range table `unicode.Scripts["Han"]` as the Go standard library has it
for Unicode 15.0.0, as triples (lo, hi, stride). The table belongs to the
toolchain, not to the program: older toolchains lack some of these runes and
newer ones add ranges. It is the table of the worked examples; the
characterization of the detector takes the table as a parameter. -/
def unicodeHan : List (Nat × Nat × Nat) :=
  [(0x2e80, 0x2e99, 1), (0x2e9b, 0x2ef3, 1), (0x2f00, 0x2fd5, 1), (0x3005, 0x3007, 2),
   (0x3021, 0x3029, 1), (0x3038, 0x303b, 1), (0x3400, 0x4dbf, 1), (0x4e00, 0x9fff, 1),
   (0xf900, 0xfa6d, 1), (0xfa70, 0xfad9, 1),
   (0x16fe2, 0x16fe3, 1), (0x16ff0, 0x16ff1, 1), (0x20000, 0x2a6df, 1),
   (0x2a700, 0x2b739, 1), (0x2b740, 0x2b81d, 1), (0x2b820, 0x2cea1, 1),
   (0x2ceb0, 0x2ebe0, 1), (0x2f800, 0x2fa1d, 1), (0x30000, 0x3134a, 1),
   (0x31350, 0x323af, 1)]

/-- The function `unicode.Is`: whether the rune is in one of the ranges of
the table. -/
def unicodeIs (rangeTab : List (Nat × Nat × Nat)) (r : Nat) : Bool :=
  rangeTab.any (fun e => decide (e.1 ≤ r ∧ r ≤ e.2.1 ∧ (r - e.1) % e.2.2 = 0))

/-- The runes of the character class of the regular expression at line 95. -/
def punctuationClass : List Nat :=
  [0x3002, 0xff1b, 0xff0c, 0xff1a, 0x201c, 0x201d, 0xff08, 0xff09, 0x3001, 0xff1f,
   0x300a, 0x300b]

/-- The method `MatchString` of a regular expression that is one character
class: the text matches when one of its runes is in the class. -/
def classMatchString (cls : List Nat) (text : GoString) : Bool :=
  (runes text).any (fun r => decide (r ∈ cls))

/-- The body of the loop of `HasChineseChar` over the runes of the string;
`han` is the range table `unicode.Scripts["Han"]` of the toolchain. -/
def hasChineseLoop (han : List (Nat × Nat × Nat)) : List Nat → Bool
  | [] => false
  | r :: rs =>
    if unicodeIs han r || classMatchString punctuationClass (encodeRune r) then true
    else hasChineseLoop han rs

/-- The function `HasChineseChar`, with the range table `unicode.Scripts["Han"]`
of the toolchain as a parameter. -/
def HasChineseCharWith (han : List (Nat × Nat × Nat)) (str : GoString) : Bool :=
  hasChineseLoop han (runes str)

/-- The function `HasChineseChar` with the Han table of Unicode 15.0.0. -/
def HasChineseChar (str : GoString) : Bool :=
  HasChineseCharWith unicodeHan str

/-! ## `ReadJarMetaInfo` (lines 35-91) -/

/-- The struct `JavaGame`. -/
structure JavaGame where
  MIDletName : GoString
  MIDletDescription : GoString
deriving DecidableEq, Repr

/-- A Go `map[string]string`, as an association list with one entry per key. -/
abbrev FieldMap := List (GoString × GoString)

/-- The index expression `m[k]`: the value of the key, the empty string when the
key is absent. -/
def mapGet (m : FieldMap) (k : GoString) : GoString :=
  (m.lookup k).getD []

/-- The assignment `m[k] = v`. -/
def mapSet (m : FieldMap) (k v : GoString) : FieldMap :=
  (k, v) :: m.filter (fun e => !(e.1 == k))

/-- The body of the line loop (lines 63-72). -/
def parseLine (contentMap : FieldMap) (line : GoString) : FieldMap :=
  if Trim line (lit " \r\n") = lit "" then contentMap
  else
    let index := Index line (lit ":")
    if index = -1 then contentMap
    else
      let key := line.take index.toNat
      let value := line.drop (index.toNat + 1)
      mapSet contentMap (Trim key (lit " \r\n")) (Trim value (lit " \r\n"))

/-- The line loop (lines 60-73): the field map of a manifest text. -/
def parseManifest (content : GoString) : FieldMap :=
  (Split content (lit "\n")).foldl parseLine []

/-- The derivation of the name (lines 75-85). -/
def deriveName (contentMap : FieldMap) : GoString :=
  let name := NormalizationName (mapGet contentMap (lit "MIDlet-Name"))
  if !HasChineseChar name then
    let tmp := NormalizationName (mapGet contentMap (lit "MIDlet-1"))
    let arr := Split tmp (lit ",")
    match arr with
    | [] => name
    | a0 :: _ =>
      let tmp := NormalizationName a0
      if HasChineseChar tmp then tmp else name
  else name

/-- The derivation of the record (lines 75-87). -/
def deriveGame (contentMap : FieldMap) : JavaGame :=
  let name := deriveName contentMap
  let desc := NormalizationName (mapGet contentMap (lit "MIDlet-Description"))
  { MIDletName := name, MIDletDescription := desc }

/-- An entry of an opened archive: its name and the text read from it, `none`
when opening the entry fails (the deferred `rc.Close()` on the nil reader then
panics and the panic is recovered). -/
structure ZipFile where
  Name : GoString
  content : Option GoString

/-- The loop over the entries of the archive (lines 47-90). -/
def readEntries : List ZipFile → Option JavaGame
  | [] => none
  | f :: fs =>
    if f.Name = lit "META-INF/MANIFEST.MF" then
      match f.content with
      | none => none
      | some content => some (deriveGame (parseManifest content))
    else readEntries fs

/-- The function `ReadJarMetaInfo`; `openReader` stands for `zip.OpenReader`,
`none` being its error result. -/
def ReadJarMetaInfo (openReader : GoString → Option (List ZipFile)) (jarPath : GoString) :
    Option JavaGame :=
  match openReader jarPath with
  | none => none
  | some files => readEntries files

/-! ## The scan of `main` (lines 148-175) -/

/-- The function `strings.ToLower`: a string of ASCII bytes has its letters
`A`-`Z` lowered; any other string is mapped rune by rune through
`unicode.ToLower`, for which `mapLower` stands. -/
def ToLower (mapLower : GoString → GoString) (s : GoString) : GoString :=
  if s.all (fun c => decide (c.val < 0x80)) then
    s.map (fun c => if 0x41 ≤ c.val ∧ c.val ≤ 0x5A then c + 0x20 else c)
  else mapLower s

/-- What the scan takes from its host: the manifest reader applied to the files
on disk, `filepath.Dir`, `os.PathSeparator` and the case mapping of the
Unicode tables. -/
structure Host where
  readJar : GoString → Option JavaGame
  Dir : GoString → GoString
  PathSeparator : Byte
  mapLower : GoString → GoString

/-- The effects of the scan: the records written to the CSV writer after the
header and the calls of `os.Rename` (old path, new path), both in order. -/
structure Scan where
  rows : List (List GoString)
  renames : List (GoString × GoString)

/-- The marker written as the name of an archive that gave no record (line 163). -/
def errorMarker : GoString :=
  lit "!!!!!文件错误，读取信息失败!!!!!!"

/-- The new path passed to `os.Rename` (line 169). -/
def renameTarget (dir : GoString) (sep : Byte) (name : GoString) : GoString :=
  dir ++ [sep] ++ name ++ lit ".jar"

/-- The function passed to `VisitDir` (lines 151-174). -/
def visit (h : Host) (rename : Bool) (st : Scan) (filePath : GoString) : Scan :=
  let index := LastIndex filePath (lit ".")
  if index = -1 then st
  else
    let suffix := filePath.drop index.toNat
    let suffix := ToLower h.mapLower suffix
    if suffix ≠ lit ".jar" then st
    else
      match h.readJar filePath with
      | none => { st with rows := st.rows ++ [[filePath, errorMarker, lit ""]] }
      | some game =>
        let st := { st with rows := st.rows ++ [[filePath, game.MIDletName, game.MIDletDescription]] }
        if rename then
          { st with
            renames := st.renames ++
              [(filePath, renameTarget (h.Dir filePath) h.PathSeparator game.MIDletName)] }
        else st

/-- The scan over the file paths that `VisitDir` yields, in its order. -/
def scanFiles (h : Host) (rename : Bool) (paths : List GoString) : Scan :=
  paths.foldl (visit h rename) { rows := [], renames := [] }

/-! ## Notions of the specification -/

/-- The name derivation as the specification words it: the raw `MIDlet-1`
value is split on `,`, its first segment is normalized once, and that is the
name when it has a target-script character and the normalized `MIDlet-Name`
has none. -/
def specDeriveName (contentMap : FieldMap) : GoString :=
  let name := NormalizationName (mapGet contentMap (lit "MIDlet-Name"))
  let fallback := NormalizationName ((Split (mapGet contentMap (lit "MIDlet-1")) (lit ",")).headD [])
  if !HasChineseChar name && HasChineseChar fallback then fallback else name

/-- The text of a line before its first colon. -/
def keyText (line : GoString) : GoString :=
  line.takeWhile (fun c => !(c == 0x3A))

/-- The text of a line after its first colon. -/
def valueText (line : GoString) : GoString :=
  (line.dropWhile (fun c => !(c == 0x3A))).drop 1

/-- The lines of a manifest that define the key `k`: they contain a colon and
the text before the first colon trims to `k`. -/
def linesOfKey (content k : GoString) : List GoString :=
  (Split content (lit "\n")).filter
    (fun line => decide ((0x3A : Byte) ∈ line) && decide (Trim (keyText line) (lit " \r\n") = k))

/-- A path has the extension `.jar` case-insensitively: its last four bytes
are a dot and the letters j, a, r in either case. -/
def hasJarExtension (path : GoString) : Bool :=
  match path.reverse with
  | r :: a :: j :: d :: _ =>
    decide (d = 0x2E) && decide (j = 0x6A ∨ j = 0x4A) && decide (a = 0x61 ∨ a = 0x41)
      && decide (r = 0x72 ∨ r = 0x52)
  | _ => false

/-- The report row of a path: the record of the reader, or the error marker. -/
def rowOf (h : Host) (path : GoString) : List GoString :=
  match h.readJar path with
  | none => [path, errorMarker, lit ""]
  | some game => [path, game.MIDletName, game.MIDletDescription]

/-- The final component of a path: the text after its last separator. -/
def lastComponent (sep : Byte) (path : GoString) : GoString :=
  (path.reverse.takeWhile (fun c => !(c == sep))).reverse

/-- The list does not begin with an element satisfying `p`. -/
def StartsClean {α : Type} (p : α → Bool) (s : List α) : Prop :=
  ∀ x, s.head? = some x → p x = false

/-- The list does not end with an element satisfying `p`. -/
def EndsClean {α : Type} (p : α → Bool) (s : List α) : Prop :=
  ∀ x, s.getLast? = some x → p x = false

/-- The last three steps of `NormalizationName` together: the bytes that are a
colon, a question mark or an asterisk are deleted. -/
def removeUnsafe (s : GoString) : GoString :=
  ((s.filter (fun c => !(c == 0x3A))).filter (fun c => !(c == 0x3F))).filter
    (fun c => !(c == 0x2A))

/-- The first two steps of `NormalizationName` together: the instances of the
two key labels are deleted. -/
def removeLabels (s : GoString) : GoString :=
  ReplaceAll (ReplaceAll s (lit "MIDlet-Name:") []) (lit "MIDlet-Description:") []

/-- An example of `zip.OpenReader`: "a/bad.jar" is not an archive, "a/empty.jar"
has no manifest entry, the manifest of "a/up.jar" names the game "../up", and
every other path is an archive whose manifest names the game "游戏". -/
def exampleOpen (path : GoString) : Option (List ZipFile) :=
  if path = lit "a/bad.jar" then none
  else if path = lit "a/empty.jar" then some [{ Name := lit "x.class", content := some [] }]
  else if path = lit "a/up.jar" then
    some [{ Name := lit "META-INF/MANIFEST.MF", content := some (lit "MIDlet-Name: ../up\r\n") }]
  else
    some [{ Name := lit "x.class", content := some [] },
      { Name := lit "META-INF/MANIFEST.MF",
        content := some (lit "MIDlet-Name: 游戏\nMIDlet-Description: fun\n") }]

/-- An example host: the archives of `exampleOpen`, every file in the directory
"a", the separator `/`, and a case mapping that leaves non-ASCII strings as
they are. -/
def exampleHost : Host where
  readJar := ReadJarMetaInfo exampleOpen
  Dir := fun _ => lit "a"
  PathSeparator := 0x2F
  mapLower := fun s => s

/-! ## Lemmas on the string functions -/

theorem lit_empty : lit "" = [] := by decide

theorem lit_colon : lit ":" = [0x3A] := by decide

theorem lit_question : lit "?" = [0x3F] := by decide

theorem lit_star : lit "*" = [0x2A] := by decide

theorem replaceFrom_skip (old new : GoString) (k : Nat) (s : GoString) :
    replaceFrom old new k s = replaceFrom old new 0 (s.drop k) := by
  induction k generalizing s with
  | zero => simp
  | succ k ih =>
    cases s with
    | nil => simp [replaceFrom]
    | cons c s => simp [replaceFrom, ih s]

theorem ReplaceAll_nil (old new : GoString) : ReplaceAll [] old new = [] := by
  simp [ReplaceAll, replaceFrom]

theorem HasPrefix_single (c x : Byte) (s : GoString) : HasPrefix (c :: s) [x] = (c == x) := by
  simp [HasPrefix]

/-- Removing a single byte: `ReplaceAll s [x] ""` keeps the other bytes. -/
theorem ReplaceAll_single (s : GoString) (x : Byte) :
    ReplaceAll s [x] [] = s.filter (fun c => !(c == x)) := by
  unfold ReplaceAll
  induction s with
  | nil => simp [replaceFrom]
  | cons c s ih =>
    by_cases h : c = x
    · subst h
      simp [replaceFrom, HasPrefix, ih]
    · simp [replaceFrom, HasPrefix, ih, h]

/-! ### Trimming -/

theorem startsClean_dropWhile {α : Type} (p : α → Bool) (s : List α) :
    StartsClean p (s.dropWhile p) := by
  intro x hx
  have h := List.head?_dropWhile_not p s
  rw [hx] at h
  exact h

theorem dropWhile_of_startsClean {α : Type} (p : α → Bool) (s : List α)
    (h : StartsClean p s) : s.dropWhile p = s := by
  cases s with
  | nil => rfl
  | cons x t =>
    have hx : p x = false := h x rfl
    simp [List.dropWhile, hx]

theorem endsClean_iff_reverse {α : Type} (p : α → Bool) (s : List α) :
    EndsClean p s ↔ StartsClean p s.reverse := by
  simp [EndsClean, StartsClean, List.head?_reverse]

theorem endsClean_rdropWhile {α : Type} (p : α → Bool) (s : List α) :
    EndsClean p (s.reverse.dropWhile p).reverse := by
  rw [endsClean_iff_reverse, List.reverse_reverse]
  exact startsClean_dropWhile p _

theorem rdropWhile_of_endsClean {α : Type} (p : α → Bool) (s : List α)
    (h : EndsClean p s) : (s.reverse.dropWhile p).reverse = s := by
  rw [endsClean_iff_reverse] at h
  rw [dropWhile_of_startsClean p _ h, List.reverse_reverse]

theorem endsClean_dropWhile {α : Type} (p : α → Bool) (s : List α)
    (h : EndsClean p s) : EndsClean p (s.dropWhile p) := by
  induction s with
  | nil => simpa using h
  | cons x t ih =>
    by_cases hx : p x = true
    · simp only [List.dropWhile, hx]
      cases t with
      | nil => intro y hy; simp at hy
      | cons z u =>
        apply ih
        intro y hy
        apply h y
        simpa [List.getLast?_cons_cons] using hy
    · simp only [Bool.not_eq_true] at hx
      simpa [List.dropWhile, hx] using h

theorem startsClean_Trim (s cutset : GoString) :
    StartsClean (fun b => decide (b ∈ cutset)) (Trim s cutset) :=
  startsClean_dropWhile _ _

theorem endsClean_Trim (s cutset : GoString) :
    EndsClean (fun b => decide (b ∈ cutset)) (Trim s cutset) :=
  endsClean_dropWhile _ _ (endsClean_rdropWhile _ _)

theorem Trim_of_clean (s cutset : GoString)
    (h1 : StartsClean (fun b => decide (b ∈ cutset)) s)
    (h2 : EndsClean (fun b => decide (b ∈ cutset)) s) : Trim s cutset = s := by
  unfold Trim TrimLeft TrimRight
  rw [rdropWhile_of_endsClean _ _ h2, dropWhile_of_startsClean _ _ h1]

theorem Trim_idem (s cutset : GoString) : Trim (Trim s cutset) cutset = Trim s cutset :=
  Trim_of_clean _ _ (startsClean_Trim s cutset) (endsClean_Trim s cutset)

theorem mem_of_mem_Trim (s cutset : GoString) (x : Byte) (h : x ∈ Trim s cutset) : x ∈ s := by
  unfold Trim TrimLeft TrimRight at h
  have h1 := (List.dropWhile_suffix (fun b => decide (b ∈ cutset))).subset h
  rw [List.mem_reverse] at h1
  have h2 := (List.dropWhile_suffix (fun b => decide (b ∈ cutset))).subset h1
  simpa using h2

/-! ### Replacing -/

theorem mem_of_HasPrefix (s old : GoString) (h : HasPrefix s old = true) :
    ∀ x ∈ old, x ∈ s := by
  induction old generalizing s with
  | nil => simp
  | cons p ps ih =>
    cases s with
    | nil => simp [HasPrefix] at h
    | cons c t =>
      simp only [HasPrefix, Bool.and_eq_true, beq_iff_eq] at h
      intro x hx
      rcases List.mem_cons.1 hx with hx | hx
      · subst hx; simp [h.1]
      · exact List.mem_cons_of_mem _ (ih t h.2 x hx)

/-- A string that lacks one of the bytes of `old` has no instance of `old`. -/
theorem ReplaceAll_of_not_mem (s old new : GoString) (x : Byte) (hx : x ∈ old)
    (hs : x ∉ s) : ReplaceAll s old new = s := by
  unfold ReplaceAll
  induction s with
  | nil => simp [replaceFrom]
  | cons c t ih =>
    have hp : HasPrefix (c :: t) old = false := by
      by_contra hp
      simp only [Bool.not_eq_false] at hp
      exact hs (mem_of_HasPrefix _ _ hp x hx)
    have ht : x ∉ t := fun h => hs (List.mem_cons_of_mem _ h)
    simp [replaceFrom, hp, ih ht]

/-- Deleting instances of `old` leaves a sublist. -/
theorem replaceFrom_nil_sublist (old : GoString) (k : Nat) (s : GoString) :
    (replaceFrom old [] k s).Sublist s := by
  induction s generalizing k with
  | nil => simp [replaceFrom]
  | cons c t ih =>
    cases k with
    | zero =>
      simp only [replaceFrom]
      split
      · exact List.Sublist.cons _ (by simpa using ih _)
      · exact List.Sublist.cons₂ _ (ih 0)
    | succ k =>
      simp only [replaceFrom]
      exact List.Sublist.cons _ (ih k)

theorem mem_of_mem_ReplaceAll_nil (s old : GoString) (x : Byte)
    (h : x ∈ ReplaceAll s old []) : x ∈ s :=
  (replaceFrom_nil_sublist old 0 s).subset h

/-! ### Prefixes and the comma boundary -/

theorem HasPrefix_iff (s p : GoString) : HasPrefix s p = true ↔ p <+: s := by
  induction p generalizing s with
  | nil => simp [HasPrefix]
  | cons a p ih =>
    cases s with
    | nil => simp [HasPrefix]
    | cons c s =>
      simp only [HasPrefix, Bool.and_eq_true, beq_iff_eq, ih, List.cons_prefix_cons]
      constructor
      · rintro ⟨h1, h2⟩; exact ⟨h1.symm, h2⟩
      · rintro ⟨h1, h2⟩; exact ⟨h1.symm, h2⟩

theorem ReplaceAll_cons_pos (c : Byte) (s old new : GoString)
    (h : HasPrefix (c :: s) old = true) :
    ReplaceAll (c :: s) old new = new ++ ReplaceAll (s.drop (old.length - 1)) old new := by
  simp only [ReplaceAll, replaceFrom, h, if_true]
  rw [replaceFrom_skip]

theorem ReplaceAll_cons_neg (c : Byte) (s old new : GoString)
    (h : HasPrefix (c :: s) old = false) :
    ReplaceAll (c :: s) old new = c :: ReplaceAll s old new := by
  simp [ReplaceAll, replaceFrom, h]

/-- A prefix test against a pattern without the byte `x` does not look past an
`x` in the string. -/
theorem HasPrefix_append_boundary (a b old : GoString) (x : Byte) (hx : x ∉ old) :
    HasPrefix (a ++ x :: b) old = HasPrefix a old := by
  induction old generalizing a with
  | nil => simp [HasPrefix]
  | cons p ps ih =>
    have hp : x ≠ p := fun e => hx (e ▸ List.mem_cons_self _ _)
    have hps : x ∉ ps := fun h => hx (List.mem_cons_of_mem _ h)
    cases a with
    | nil => simp [HasPrefix, hp]
    | cons c a => simp [HasPrefix, ih a hps]

/-- Replacing instances of a non-empty pattern without the byte `x` works on
both sides of an `x` independently. -/
theorem ReplaceAll_append_boundary (old new : GoString) (x : Byte) (hx : x ∉ old)
    (hne : old ≠ []) (n : Nat) :
    ∀ a b : GoString, a.length ≤ n →
      ReplaceAll (a ++ x :: b) old new = ReplaceAll a old new ++ x :: ReplaceAll b old new := by
  induction n with
  | zero =>
    intro a b ha
    have : a = [] := List.length_eq_zero.1 (Nat.le_zero.1 ha)
    subst this
    have hp : HasPrefix ([] ++ x :: b) old = false := by
      rw [HasPrefix_append_boundary _ _ _ _ hx]
      cases old with
      | nil => exact absurd rfl hne
      | cons p ps => rfl
    simp only [List.nil_append] at hp ⊢
    rw [ReplaceAll_cons_neg _ _ _ _ hp, ReplaceAll_nil]
    rfl
  | succ n ih =>
    intro a b ha
    cases a with
    | nil => exact ih [] b (Nat.zero_le _)
    | cons c a =>
      have hlen : a.length ≤ n := by simpa using ha
      have hb := HasPrefix_append_boundary (c :: a) b old x hx
      rw [List.cons_append] at hb ⊢
      cases hp : HasPrefix (c :: a) old with
      | false =>
        rw [hp] at hb
        rw [ReplaceAll_cons_neg _ _ _ _ hb, ReplaceAll_cons_neg _ _ _ _ hp, ih a b hlen]
        rfl
      | true =>
        rw [hp] at hb
        rw [ReplaceAll_cons_pos _ _ _ _ hb, ReplaceAll_cons_pos _ _ _ _ hp]
        have hle : old.length ≤ (c :: a).length := ((HasPrefix_iff _ _).1 hp).length_le
        have hle2 : old.length - 1 ≤ a.length := by
          simp only [List.length_cons] at hle
          omega
        rw [List.drop_append_of_le_length hle2,
          ih (a.drop (old.length - 1)) b (by rw [List.length_drop]; omega)]
        simp

/-! ### Normalizing -/

/-- The last three steps of `NormalizationName` as filters. -/
theorem NormalizationName_eq (s : GoString) :
    NormalizationName s =
      (((Trim (ReplaceAll (ReplaceAll s (lit "MIDlet-Name:") []) (lit "MIDlet-Description:") [])
        (lit " \r\n\\:")).filter (fun c => !(c == 0x3A))).filter (fun c => !(c == 0x3F))).filter
        (fun c => !(c == 0x2A)) := by
  simp only [NormalizationName, lit_colon, lit_question, lit_star, lit_empty, ReplaceAll_single]

/-- The output of `NormalizationName` has no colon, question mark or asterisk. -/
theorem normalization_no_unsafe_char_aux (s : GoString) :
    (0x3A : Byte) ∉ NormalizationName s ∧ (0x3F : Byte) ∉ NormalizationName s
      ∧ (0x2A : Byte) ∉ NormalizationName s := by
  rw [NormalizationName_eq]
  simp [List.mem_filter]

theorem colon_mem_nameLabel : (0x3A : Byte) ∈ lit "MIDlet-Name:" := by decide

theorem colon_mem_descLabel : (0x3A : Byte) ∈ lit "MIDlet-Description:" := by decide

theorem cutset_colon : decide ((0x3A : Byte) ∈ lit " \r\n\\:") = true := by decide

theorem filter_of_not_mem (s : GoString) (x : Byte) (h : x ∉ s) :
    s.filter (fun c => !(c == x)) = s := by
  rw [List.filter_eq_self]
  intro a ha
  have : a ≠ x := fun e => h (e ▸ ha)
  simpa using this

/-- A string without colon, question mark and asterisk is only trimmed. -/
theorem NormalizationName_of_safe (t : GoString) (h1 : (0x3A : Byte) ∉ t)
    (h2 : (0x3F : Byte) ∉ t) (h3 : (0x2A : Byte) ∉ t) :
    NormalizationName t = Trim t (lit " \r\n\\:") := by
  rw [NormalizationName_eq, ReplaceAll_of_not_mem t _ _ _ colon_mem_nameLabel h1,
    ReplaceAll_of_not_mem t _ _ _ colon_mem_descLabel h1]
  have m1 : (0x3A : Byte) ∉ Trim t (lit " \r\n\\:") := fun h => h1 (mem_of_mem_Trim _ _ _ h)
  have m2 : (0x3F : Byte) ∉ Trim t (lit " \r\n\\:") := fun h => h2 (mem_of_mem_Trim _ _ _ h)
  have m3 : (0x2A : Byte) ∉ Trim t (lit " \r\n\\:") := fun h => h3 (mem_of_mem_Trim _ _ _ h)
  rw [filter_of_not_mem _ _ m1, filter_of_not_mem _ _ m2, filter_of_not_mem _ _ m3]

theorem startsClean_filter {α : Type} (p q : α → Bool) (s : List α)
    (hpq : ∀ x, p x = false → q x = true) (h : StartsClean p s) :
    StartsClean p (s.filter q) := by
  cases s with
  | nil => intro x hx; simp at hx
  | cons a t =>
    have ha : p a = false := h a rfl
    intro x hx
    simp [List.filter, hpq a ha] at hx
    exact hx ▸ ha

theorem endsClean_filter {α : Type} (p q : α → Bool) (s : List α)
    (hpq : ∀ x, p x = false → q x = true) (h : EndsClean p s) :
    EndsClean p (s.filter q) := by
  rw [endsClean_iff_reverse] at h ⊢
  rw [← List.filter_reverse]
  exact startsClean_filter p q _ hpq h

theorem NormalizationName_eq_steps (s : GoString) :
    NormalizationName s = removeUnsafe (Trim (removeLabels s) (lit " \r\n\\:")) :=
  NormalizationName_eq s

theorem dropWhile_append_boundary {α : Type} (p : α → Bool) (a b : List α) (x : α)
    (hx : p x = false) : (a ++ x :: b).dropWhile p = a.dropWhile p ++ x :: b := by
  induction a with
  | nil => simp [List.dropWhile, hx]
  | cons c a ih =>
    by_cases hc : p c = true
    · simp [List.dropWhile, hc, ih]
    · simp only [Bool.not_eq_true] at hc
      simp [List.dropWhile, hc]

theorem dropWhile_append_all {α : Type} (p : α → Bool) (a b : List α)
    (ha : ∀ y ∈ a, p y = true) : (a ++ b).dropWhile p = b.dropWhile p := by
  induction a with
  | nil => rfl
  | cons c a ih =>
    have hc : p c = true := ha c (List.mem_cons_self _ _)
    simp only [List.cons_append, List.dropWhile, hc]
    exact ih (fun y hy => ha y (List.mem_cons_of_mem _ hy))

theorem Trim_append_boundary (a b cutset : GoString) (x : Byte) (hx : x ∉ cutset) :
    Trim (a ++ x :: b) cutset = TrimLeft a cutset ++ x :: TrimRight b cutset := by
  have hp : (fun b => decide (b ∈ cutset)) x = false := by simpa using hx
  unfold Trim TrimLeft TrimRight
  rw [List.reverse_append, List.reverse_cons, List.append_assoc, List.singleton_append,
    dropWhile_append_boundary (fun b => decide (b ∈ cutset)) _ _ x hp, List.reverse_append,
    List.reverse_cons, List.reverse_reverse, List.append_assoc, List.singleton_append,
    dropWhile_append_boundary (fun b => decide (b ∈ cutset)) _ _ x hp]

theorem TrimRight_append_all (w b cutset : GoString) (hb : ∀ y ∈ b, y ∈ cutset) :
    TrimRight (w ++ b) cutset = TrimRight w cutset := by
  unfold TrimRight
  rw [List.reverse_append, dropWhile_append_all]
  intro y hy
  simpa using hb y (List.mem_reverse.1 hy)

theorem Trim_append_all (w b cutset : GoString) (hb : ∀ y ∈ b, y ∈ cutset) :
    Trim (w ++ b) cutset = Trim w cutset := by
  unfold Trim
  rw [TrimRight_append_all _ _ _ hb]

/-- Trimming on the left only leaves the trimmed string followed by bytes of
the cutset. -/
theorem TrimLeft_eq_Trim_append (y cutset : GoString) :
    ∃ b : GoString, (∀ z ∈ b, z ∈ cutset) ∧ TrimLeft y cutset = Trim y cutset ++ b := by
  have hsplit : y = TrimRight y cutset
      ++ (y.reverse.takeWhile (fun b => decide (b ∈ cutset))).reverse := by
    unfold TrimRight
    rw [← List.reverse_append, List.takeWhile_append_dropWhile, List.reverse_reverse]
  have hall : ∀ z ∈ (y.reverse.takeWhile (fun b => decide (b ∈ cutset))).reverse,
      z ∈ cutset := by
    intro z hz
    have := List.mem_takeWhile_imp (List.mem_reverse.1 hz)
    simpa using this
  by_cases he : Trim y cutset = []
  · refine ⟨[], by simp, ?_⟩
    rw [he, List.append_nil]
    unfold TrimLeft
    rw [hsplit, List.dropWhile_append]
    have he2 : (TrimRight y cutset).dropWhile (fun b => decide (b ∈ cutset)) = [] := he
    rw [he2]
    simp only [List.isEmpty_nil, if_true]
    rw [List.dropWhile_eq_nil_iff]
    intro z hz
    simpa using hall z hz
  · refine ⟨_, hall, ?_⟩
    have he2 : (TrimRight y cutset).dropWhile (fun b => decide (b ∈ cutset)) ≠ [] := he
    have : TrimLeft y cutset = TrimLeft (TrimRight y cutset
        ++ (y.reverse.takeWhile (fun b => decide (b ∈ cutset))).reverse) cutset := by
      rw [← hsplit]
    rw [this]
    unfold TrimLeft
    rw [List.dropWhile_append]
    simp only [List.isEmpty_eq_true, he2, if_false]
    rfl

theorem removeUnsafe_append (a b : GoString) :
    removeUnsafe (a ++ b) = removeUnsafe a ++ removeUnsafe b := by
  simp [removeUnsafe, List.filter_append]

theorem mem_of_mem_removeUnsafe (s : GoString) (x : Byte) (h : x ∈ removeUnsafe s) : x ∈ s := by
  simp only [removeUnsafe, List.mem_filter] at h
  exact h.1.1.1

theorem mem_of_mem_removeLabels (s : GoString) (x : Byte) (h : x ∈ removeLabels s) : x ∈ s :=
  mem_of_mem_ReplaceAll_nil _ _ _ (mem_of_mem_ReplaceAll_nil _ _ _ h)

theorem mem_of_mem_TrimLeft (s cutset : GoString) (x : Byte) (h : x ∈ TrimLeft s cutset) :
    x ∈ s :=
  (List.dropWhile_suffix _).subset h

theorem mem_of_mem_NormalizationName (s : GoString) (x : Byte)
    (h : x ∈ NormalizationName s) : x ∈ s := by
  rw [NormalizationName_eq_steps] at h
  exact mem_of_mem_removeLabels _ _ (mem_of_mem_Trim _ _ _ (mem_of_mem_removeUnsafe _ _ h))

theorem removeUnsafe_safe (s : GoString) :
    (0x3A : Byte) ∉ removeUnsafe s ∧ (0x3F : Byte) ∉ removeUnsafe s
      ∧ (0x2A : Byte) ∉ removeUnsafe s := by
  simp [removeUnsafe, List.mem_filter]

/-- Normalizing twice trims the normalized string once more. -/
theorem NormalizationName_twice (s : GoString) :
    NormalizationName (NormalizationName s) = Trim (NormalizationName s) (lit " \r\n\\:") := by
  have h := normalization_no_unsafe_char_aux s
  exact NormalizationName_of_safe _ h.1 h.2.1 h.2.2

/-- Without question mark and asterisk in the input, the output neither
begins nor ends with a byte of the cutset. -/
theorem NormalizationName_clean (s : GoString) (h2 : (0x3F : Byte) ∉ s)
    (h3 : (0x2A : Byte) ∉ s) :
    StartsClean (fun b => decide (b ∈ lit " \r\n\\:")) (NormalizationName s)
      ∧ EndsClean (fun b => decide (b ∈ lit " \r\n\\:")) (NormalizationName s) := by
  rw [NormalizationName_eq]
  have m2 : (0x3F : Byte) ∉ (Trim (ReplaceAll (ReplaceAll s (lit "MIDlet-Name:") [])
      (lit "MIDlet-Description:") []) (lit " \r\n\\:")).filter (fun c => !(c == 0x3A)) :=
    fun h => h2 (mem_of_mem_ReplaceAll_nil _ _ _ (mem_of_mem_ReplaceAll_nil _ _ _
      (mem_of_mem_Trim _ _ _ (List.mem_filter.1 h).1)))
  rw [filter_of_not_mem _ _ m2]
  have m3 : (0x2A : Byte) ∉ (Trim (ReplaceAll (ReplaceAll s (lit "MIDlet-Name:") [])
      (lit "MIDlet-Description:") []) (lit " \r\n\\:")).filter (fun c => !(c == 0x3A)) :=
    fun h => h3 (mem_of_mem_ReplaceAll_nil _ _ _ (mem_of_mem_ReplaceAll_nil _ _ _
      (mem_of_mem_Trim _ _ _ (List.mem_filter.1 h).1)))
  rw [filter_of_not_mem _ _ m3]
  have hpq : ∀ x : Byte, decide (x ∈ lit " \r\n\\:") = false → (!(x == 0x3A)) = true := by
    intro x hx
    by_cases e : x = 0x3A
    · subst e; rw [cutset_colon] at hx; cases hx
    · simpa using e
  exact ⟨startsClean_filter _ _ _ hpq (startsClean_Trim _ _),
    endsClean_filter _ _ _ hpq (endsClean_Trim _ _)⟩

/-! ### The first segment of a split -/

/-- The first element of `Split s [c]` is the text of `s` before its first `c`. -/
theorem Split_single (s : GoString) (c : Byte) :
    ∃ rest, Split s [c] = s.takeWhile (fun b => !(b == c)) :: rest := by
  unfold Split
  induction s with
  | nil => exact ⟨[], by simp [splitFrom]⟩
  | cons x s ih =>
    obtain ⟨rest, hrest⟩ := ih
    by_cases hx : x = c
    · subst hx
      exact ⟨splitFrom [x] 0 s, by simp [splitFrom, HasPrefix]⟩
    · exact ⟨rest, by simp [splitFrom, HasPrefix, hx, hrest]⟩

theorem removeLabels_append_boundary (a b : GoString) :
    removeLabels (a ++ 0x2C :: b) = removeLabels a ++ 0x2C :: removeLabels b := by
  unfold removeLabels
  rw [ReplaceAll_append_boundary (lit "MIDlet-Name:") [] 0x2C (by decide) (by decide)
      a.length a b (Nat.le_refl _),
    ReplaceAll_append_boundary (lit "MIDlet-Description:") [] 0x2C (by decide) (by decide)
      _ _ _ (Nat.le_refl _)]

/-- The fallback candidate of the code, the normalized first segment of the
normalized value, is the normalized first segment of the raw value, trimmed. -/
theorem NormalizationName_first_segment (v : GoString) :
    NormalizationName ((NormalizationName v).takeWhile (fun b => !(b == 0x2C)))
      = Trim (NormalizationName (v.takeWhile (fun b => !(b == 0x2C)))) (lit " \r\n\\:") := by
  have hv : v.takeWhile (fun b => !(b == 0x2C)) ++ v.dropWhile (fun b => !(b == 0x2C)) = v :=
    List.takeWhile_append_dropWhile _ _
  have hq : ∀ x ∈ v.takeWhile (fun b => !(b == (0x2C : Byte))), (!(x == (0x2C : Byte))) = true :=
    fun x hx => @List.mem_takeWhile_imp _ (fun b : Byte => !(b == 0x2C)) v x hx
  cases hd : v.dropWhile (fun b => !(b == 0x2C)) with
  | nil =>
    rw [hd, List.append_nil] at hv
    have hall : (NormalizationName v).takeWhile (fun b => !(b == 0x2C)) = NormalizationName v := by
      rw [List.takeWhile_eq_self_iff]
      intro x hx
      have hx2 := mem_of_mem_NormalizationName _ _ hx
      rw [← hv] at hx2
      exact hq x hx2
    rw [hall, hv, NormalizationName_twice]
  | cons x rest =>
    have hx : (!(x == (0x2C : Byte))) = false := by
      have h := List.head?_dropWhile_not (fun b : Byte => !(b == 0x2C)) v
      rw [hd] at h
      simpa using h
    have hx2 : x = 0x2C := by simpa using hx
    subst hx2
    rw [hd] at hv
    generalize v.takeWhile (fun b => !(b == (0x2C : Byte))) = s0 at hv hq
    subst hv
    have hA : ∀ y ∈ removeUnsafe (TrimLeft (removeLabels s0) (lit " \r\n\\:")),
        (!(y == (0x2C : Byte))) = true := fun y hy =>
      hq y (mem_of_mem_removeLabels _ _ (mem_of_mem_TrimLeft _ _ _ (mem_of_mem_removeUnsafe _ _ hy)))
    have hN : NormalizationName (s0 ++ 0x2C :: rest)
        = removeUnsafe (TrimLeft (removeLabels s0) (lit " \r\n\\:"))
          ++ 0x2C :: removeUnsafe (TrimRight (removeLabels rest) (lit " \r\n\\:")) := by
      rw [NormalizationName_eq_steps, removeLabels_append_boundary,
        Trim_append_boundary _ _ _ _ (by decide), removeUnsafe_append]
      simp [removeUnsafe]
    rw [hN, @List.takeWhile_append_of_pos _ (fun b : Byte => !(b == 0x2C)) _ _ hA]
    simp only [List.takeWhile_cons, Bool.not_eq_true', beq_self_eq_true, Bool.not_true,
      Bool.false_eq_true, if_false, List.append_nil]
    have hs := removeUnsafe_safe (TrimLeft (removeLabels s0) (lit " \r\n\\:"))
    rw [NormalizationName_of_safe _ hs.1 hs.2.1 hs.2.2, NormalizationName_eq_steps s0]
    obtain ⟨b, hb, hb2⟩ := TrimLeft_eq_Trim_append (removeLabels s0) (lit " \r\n\\:")
    rw [hb2, removeUnsafe_append, Trim_append_all]
    intro y hy
    exact hb y (mem_of_mem_removeUnsafe _ _ hy)

/-! ### Decoding -/

theorem decode2_append_boundary (s0 : Nat) (t b : GoString) (x : Byte)
    (hx : x.val < 0x80 ∨ 0xBF < x.val) : decode2 s0 (t ++ x :: b) = decode2 s0 t := by
  rcases t with _ | ⟨s1, t⟩
  · simp [decode2, hx]
  · simp [decode2]

theorem decode3_append_boundary (s0 lo hi : Nat) (t b : GoString) (x : Byte)
    (hx : x.val < 0x80 ∨ 0xBF < x.val) (hlo : 0x80 ≤ lo) (hhi : hi ≤ 0xBF) :
    decode3 s0 lo hi (t ++ x :: b) = decode3 s0 lo hi t := by
  have hx2 : x.val < lo ∨ hi < x.val := by omega
  rcases t with _ | ⟨s1, _ | ⟨s2, t⟩⟩
  · cases b <;> simp [decode3, hx2]
  · simp [decode3, hx]
  · simp [decode3]

theorem decode4_append_boundary (s0 lo hi : Nat) (t b : GoString) (x : Byte)
    (hx : x.val < 0x80 ∨ 0xBF < x.val) (hlo : 0x80 ≤ lo) (hhi : hi ≤ 0xBF) :
    decode4 s0 lo hi (t ++ x :: b) = decode4 s0 lo hi t := by
  have hx2 : x.val < lo ∨ hi < x.val := by omega
  rcases t with _ | ⟨s1, _ | ⟨s2, _ | ⟨s3, t⟩⟩⟩
  · rcases b with _ | ⟨b0, _ | ⟨b1, b⟩⟩ <;> simp [decode4, hx2]
  · rcases b with _ | ⟨b0, b⟩ <;> simp [decode4, hx]
  · simp [decode4, hx]
  · simp [decode4]

theorem decodeRune_append_boundary (s b : GoString) (x : Byte) (hs : s ≠ [])
    (hx : x.val < 0x80 ∨ 0xBF < x.val) : decodeRune (s ++ x :: b) = decodeRune s := by
  rcases s with _ | ⟨s0, t⟩
  · exact absurd rfl hs
  · simp only [decodeRune, List.cons_append]
    rw [decode2_append_boundary _ _ _ _ hx,
      decode3_append_boundary _ _ _ _ _ _ hx (by split_ifs <;> omega) (by split_ifs <;> omega),
      decode4_append_boundary _ _ _ _ _ _ hx (by split_ifs <;> omega) (by split_ifs <;> omega)]

theorem decode2_size_le (s0 : Nat) (t : GoString) : (decode2 s0 t).2 ≤ t.length + 1 := by
  rcases t with _ | ⟨s1, t⟩
  · simp [decode2]
  · simp only [decode2]
    split_ifs <;> simp

theorem decode3_size_le (s0 lo hi : Nat) (t : GoString) :
    (decode3 s0 lo hi t).2 ≤ t.length + 1 := by
  rcases t with _ | ⟨s1, _ | ⟨s2, t⟩⟩
  · simp [decode3]
  · simp [decode3]
  · simp only [decode3]
    split_ifs <;> simp

theorem decode4_size_le (s0 lo hi : Nat) (t : GoString) :
    (decode4 s0 lo hi t).2 ≤ t.length + 1 := by
  rcases t with _ | ⟨s1, _ | ⟨s2, _ | ⟨s3, t⟩⟩⟩
  · simp [decode4]
  · simp [decode4]
  · simp [decode4]
  · simp only [decode4]
    split_ifs <;> simp

theorem decodeRune_size_le (s : GoString) : (decodeRune s).2 ≤ s.length := by
  rcases s with _ | ⟨s0, t⟩
  · simp [decodeRune]
  · simp only [decodeRune, List.length_cons]
    split_ifs <;>
      first
      | exact decode2_size_le _ _
      | exact decode3_size_le _ _ _ _
      | exact decode4_size_le _ _ _ _
      | simp

theorem rangeFrom_zero_cons (c : Byte) (s : GoString) :
    rangeFrom 0 (c :: s)
      = (decodeRune (c :: s)).1 :: rangeFrom ((decodeRune (c :: s)).2 - 1) s := rfl

/-- The runes before a byte that cannot continue an encoding do not depend on
what follows it, and the byte starts a rune of its own. -/
theorem rangeFrom_append_boundary (x : Byte) (b : GoString)
    (hx : x.val < 0x80 ∨ 0xBF < x.val) (s : GoString) :
    ∀ k, k ≤ s.length → rangeFrom k (s ++ x :: b) = rangeFrom k s ++ rangeFrom 0 (x :: b) := by
  induction s with
  | nil =>
    intro k hk
    have : k = 0 := by simpa using hk
    subst this
    simp [rangeFrom]
  | cons c s ih =>
    intro k hk
    cases k with
    | succ k =>
      simp only [List.cons_append, rangeFrom]
      exact ih k (by simpa using hk)
    | zero =>
      have hd := decodeRune_append_boundary (c :: s) b x (by simp) hx
      have hsz := decodeRune_size_le (c :: s)
      rw [List.length_cons] at hsz
      rw [List.cons_append, rangeFrom_zero_cons, rangeFrom_zero_cons, ← List.cons_append, hd,
        ih _ (by omega), List.cons_append]

theorem runes_append_boundary (s b : GoString) (x : Byte)
    (hx : x.val < 0x80 ∨ 0xBF < x.val) : runes (s ++ x :: b) = runes s ++ runes (x :: b) :=
  rangeFrom_append_boundary x b hx s 0 (Nat.zero_le _)

theorem runes_cons_ascii (x : Byte) (s : GoString) (hx : x.val < 0x80) :
    runes (x :: s) = x.val :: runes s := by
  simp [runes, rangeFrom, decodeRune, hx]

theorem runes_concat_ascii (s : GoString) (x : Byte) (hx : x.val < 0x80) :
    runes (s ++ [x]) = runes s ++ [x.val] := by
  rw [runes_append_boundary s [] x (Or.inl hx), runes_cons_ascii x [] hx]
  simp [runes, rangeFrom]

theorem ofNat_val (n : Nat) : (Fin.ofNat n : Byte).val = n % 256 := rfl

theorem runes_nil : runes [] = [] := rfl

theorem rangeFrom_nil (k : Nat) : rangeFrom k [] = [] := by
  cases k <;> rfl

/-- Decoding the encoding of a valid rune gives the rune back. -/
theorem runes_encodeRune (r : Nat) (h1 : r ≤ 0x10FFFF) (h2 : r < 0xD800 ∨ 0xDFFF < r) :
    runes (encodeRune r) = [r] := by
  unfold encodeRune runes
  split_ifs with c1 c2 c3 c4
  · simp only [rangeFrom_zero_cons, decodeRune, ofNat_val, rangeFrom_nil]
    rw [if_pos (by omega)]
    simp
    omega
  · simp only [rangeFrom_zero_cons, decodeRune, decode2, ofNat_val, rangeFrom_nil]
    rw [if_neg (by omega), if_neg (by omega), if_pos (by omega), if_neg (by omega)]
    simp [rangeFrom]
    omega
  · omega
  · simp only [rangeFrom_zero_cons, decodeRune, decode3, ofNat_val, rangeFrom_nil]
    rw [if_neg (by omega), if_neg (by omega), if_neg (by omega), if_pos (by omega)]
    rw [if_neg (by split_ifs <;> omega), if_neg (by omega)]
    simp [rangeFrom]
    omega
  · simp only [rangeFrom_zero_cons, decodeRune, decode4, ofNat_val, rangeFrom_nil]
    rw [if_neg (by omega), if_neg (by omega), if_neg (by omega), if_neg (by omega)]
    rw [if_neg (by split_ifs <;> omega), if_neg (by omega), if_neg (by omega)]
    simp [rangeFrom]
    omega

/-! ### The script detector -/

theorem hasChineseLoop_eq_any (han : List (Nat × Nat × Nat)) (rs : List Nat) :
    hasChineseLoop han rs = rs.any (fun r =>
      unicodeIs han r || classMatchString punctuationClass (encodeRune r)) := by
  induction rs with
  | nil => rfl
  | cons r rs ih =>
    simp only [hasChineseLoop, List.any_cons, ih]
    cases (unicodeIs han r || classMatchString punctuationClass (encodeRune r)) <;> simp

theorem punctuation_valid (r : Nat) (h : r ∈ punctuationClass) :
    r ≤ 0x10FFFF ∧ (r < 0xD800 ∨ 0xDFFF < r) := by
  simp only [punctuationClass, List.mem_cons, List.mem_singleton, List.not_mem_nil, or_false] at h
  omega

/-- The regular expression of line 95 matches `string(r)` exactly when `r` is
one of its twelve runes. -/
theorem classMatchString_encodeRune (r : Nat) :
    classMatchString punctuationClass (encodeRune r) = decide (r ∈ punctuationClass) := by
  by_cases hv : r ≤ 0x10FFFF ∧ (r < 0xD800 ∨ 0xDFFF < r)
  · simp [classMatchString, runes_encodeRune r hv.1 hv.2]
  · have hn : r ∉ punctuationClass := fun h => hv (punctuation_valid r h)
    have he : encodeRune r = [0xEF, 0xBF, 0xBD] := by
      unfold encodeRune
      rw [if_neg (by omega), if_neg (by omega), if_pos (by omega)]
    rw [he]
    simp only [hn, decide_False]
    decide

theorem unicodeIs_han_lt (r : Nat) (h : r < 0x2E80) : unicodeIs unicodeHan r = false := by
  simp only [unicodeIs, unicodeHan, List.any_cons, List.any_nil, Bool.or_false, Bool.or_eq_false_iff,
    decide_eq_false_iff_not]
  omega

theorem isTarget_ascii (r : Nat) (h : r < 0x80) :
    (unicodeIs unicodeHan r || classMatchString punctuationClass (encodeRune r)) = false := by
  rw [unicodeIs_han_lt r (by omega), classMatchString_encodeRune]
  simp only [Bool.false_or, decide_eq_false_iff_not, punctuationClass, List.mem_cons,
    List.mem_singleton, List.not_mem_nil, or_false]
  omega

/-- Decoding at the start of the encoding of a valid rune gives the rune and
the length of its encoding, whatever follows. -/
theorem decodeRune_encodeRune_append (r : Nat) (post : GoString) (h1 : r ≤ 0x10FFFF)
    (h2 : r < 0xD800 ∨ 0xDFFF < r) :
    decodeRune (encodeRune r ++ post) = (r, (encodeRune r).length) := by
  unfold encodeRune
  split_ifs with c1 c2 c3 c4
  · simp only [List.cons_append, List.nil_append, decodeRune, ofNat_val]
    rw [if_pos (by omega)]
    simp
    omega
  · simp only [List.cons_append, List.nil_append, decodeRune, decode2, ofNat_val]
    rw [if_neg (by omega), if_neg (by omega), if_pos (by omega), if_neg (by omega)]
    simp
    omega
  · omega
  · simp only [List.cons_append, List.nil_append, decodeRune, decode3, ofNat_val]
    rw [if_neg (by omega), if_neg (by omega), if_neg (by omega), if_pos (by omega)]
    rw [if_neg (by split_ifs <;> omega), if_neg (by omega)]
    simp
    omega
  · simp only [List.cons_append, List.nil_append, decodeRune, decode4, ofNat_val]
    rw [if_neg (by omega), if_neg (by omega), if_neg (by omega), if_neg (by omega)]
    rw [if_neg (by split_ifs <;> omega), if_neg (by omega), if_neg (by omega)]
    simp
    omega

/-- The encoding of a rune starts with a byte that cannot continue an encoding. -/
theorem encodeRune_head (r : Nat) :
    ∃ (x : Byte) (t : GoString), encodeRune r = x :: t ∧ (x.val < 0x80 ∨ 0xBF < x.val) := by
  unfold encodeRune
  split_ifs with c1 c2 c3 c4
  · exact ⟨_, _, rfl, by rw [ofNat_val]; omega⟩
  · exact ⟨_, _, rfl, by rw [ofNat_val]; omega⟩
  · exact ⟨_, _, rfl, by decide⟩
  · exact ⟨_, _, rfl, by rw [ofNat_val]; omega⟩
  · exact ⟨_, _, rfl, by rw [ofNat_val]; omega⟩

/-- A valid rune whose encoding occurs in a string is one of the runes of the
string, whatever bytes surround it. -/
theorem mem_runes_of_encoded (pre post : GoString) (r : Nat) (h1 : r ≤ 0x10FFFF)
    (h2 : r < 0xD800 ∨ 0xDFFF < r) : r ∈ runes (pre ++ encodeRune r ++ post) := by
  obtain ⟨x, t, he, hx⟩ := encodeRune_head r
  have hd := decodeRune_encodeRune_append r post h1 h2
  rw [List.append_assoc, he, List.cons_append, runes_append_boundary pre (t ++ post) x hx]
  rw [he, List.cons_append] at hd
  apply List.mem_append_right
  unfold runes
  rw [rangeFrom_zero_cons, hd]
  exact List.mem_cons_self _ _

theorem runes_ascii (s : GoString) (h : ∀ b ∈ s, b.val < 0x80) :
    runes s = s.map (fun b => b.val) := by
  induction s with
  | nil => rfl
  | cons x s ih =>
    rw [runes_cons_ascii x s (h x (List.mem_cons_self _ _)),
      ih (fun b hb => h b (List.mem_cons_of_mem _ hb))]
    rfl

theorem HasChineseChar_cons_ascii (x : Byte) (s : GoString) (hx : x.val < 0x80) :
    HasChineseChar (x :: s) = HasChineseChar s := by
  simp only [HasChineseChar, HasChineseCharWith, hasChineseLoop_eq_any, runes_cons_ascii x s hx,
    List.any_cons,
    isTarget_ascii x.val hx, Bool.false_or]

theorem HasChineseChar_concat_ascii (s : GoString) (x : Byte) (hx : x.val < 0x80) :
    HasChineseChar (s ++ [x]) = HasChineseChar s := by
  simp only [HasChineseChar, HasChineseCharWith, hasChineseLoop_eq_any,
    runes_concat_ascii s x hx, List.any_append,
    List.any_cons, List.any_nil, isTarget_ascii x.val hx, Bool.or_false]

theorem HasChineseChar_dropWhile (p : Byte → Bool) (hp : ∀ b, p b = true → b.val < 0x80)
    (s : GoString) : HasChineseChar (s.dropWhile p) = HasChineseChar s := by
  induction s with
  | nil => rfl
  | cons x s ih =>
    by_cases hx : p x = true
    · rw [List.dropWhile_cons_of_pos hx, ih, HasChineseChar_cons_ascii x s (hp x hx)]
    · rw [List.dropWhile_cons_of_neg hx]

theorem HasChineseChar_rdropWhile (p : Byte → Bool) (hp : ∀ b, p b = true → b.val < 0x80)
    (s : GoString) : HasChineseChar (s.reverse.dropWhile p).reverse = HasChineseChar s := by
  induction s using List.reverseRecOn with
  | nil => rfl
  | append_singleton l x ih =>
    rw [List.reverse_append, List.reverse_singleton, List.singleton_append]
    by_cases hx : p x = true
    · rw [List.dropWhile_cons_of_pos hx, ih, HasChineseChar_concat_ascii l x (hp x hx)]
    · rw [List.dropWhile_cons_of_neg hx, List.reverse_cons, List.reverse_reverse]

/-- Trimming bytes of an ASCII cutset does not change the answer of the
script detector. -/
theorem HasChineseChar_Trim (s cutset : GoString) (hc : ∀ b ∈ cutset, b.val < 0x80) :
    HasChineseChar (Trim s cutset) = HasChineseChar s := by
  have hp : ∀ b : Byte, (fun b => decide (b ∈ cutset)) b = true → b.val < 0x80 := by
    intro b hb
    exact hc b (by simpa using hb)
  unfold Trim TrimLeft TrimRight
  rw [HasChineseChar_dropWhile _ hp, HasChineseChar_rdropWhile _ hp]

theorem cutset_eq : lit " \r\n\\:" = [0x20, 0x0D, 0x0A, 0x5C, 0x3A] := by decide

theorem cutset_ascii : ∀ b ∈ lit " \r\n\\:", b.val < 0x80 := by
  intro b hb
  rw [cutset_eq] at hb
  simp only [List.mem_cons, List.mem_singleton, List.not_mem_nil, or_false] at hb
  rcases hb with h | h | h | h | h <;> subst h <;> decide

/-- The name the code derives, in terms of the raw first segment of `MIDlet-1`. -/
theorem deriveName_eq (m : FieldMap) :
    deriveName m =
      if !HasChineseChar (NormalizationName (mapGet m (lit "MIDlet-Name")))
          && HasChineseChar (NormalizationName ((Split (mapGet m (lit "MIDlet-1")) (lit ",")).headD []))
      then Trim (NormalizationName ((Split (mapGet m (lit "MIDlet-1")) (lit ",")).headD []))
        (lit " \r\n\\:")
      else NormalizationName (mapGet m (lit "MIDlet-Name")) := by
  have hcomma : lit "," = [0x2C] := by decide
  obtain ⟨rest1, h1⟩ := Split_single (NormalizationName (mapGet m (lit "MIDlet-1"))) 0x2C
  obtain ⟨rest2, h2⟩ := Split_single (mapGet m (lit "MIDlet-1")) 0x2C
  simp only [deriveName, hcomma, h1, h2, List.headD_cons, NormalizationName_first_segment,
    HasChineseChar_Trim _ _ cutset_ascii]
  cases HasChineseChar (NormalizationName (mapGet m (lit "MIDlet-Name"))) <;> simp

theorem unicodeIs_iff (han : List (Nat × Nat × Nat)) (r : Nat) :
    unicodeIs han r = true ↔ ∃ e ∈ han, e.1 ≤ r ∧ r ≤ e.2.1 ∧ (r - e.1) % e.2.2 = 0 := by
  simp only [unicodeIs, List.any_eq_true, decide_eq_true_eq]

theorem mem_punctuationClass_iff (r : Nat) :
    r ∈ punctuationClass
      ↔ r ∈ [0x3002, 0xFF1B, 0xFF0C, 0xFF1A, 0x201C, 0x201D, 0xFF08, 0xFF09, 0x3001, 0xFF1F,
          0x300A, 0x300B] :=
  Iff.rfl

theorem punctuation_lower (r : Nat) (h : r ∈ punctuationClass) : 0x80 ≤ r := by
  simp only [punctuationClass, List.mem_cons, List.mem_singleton, List.not_mem_nil, or_false] at h
  omega

theorem HasChineseCharWith_iff (han : List (Nat × Nat × Nat)) (s : GoString) :
    HasChineseCharWith han s = true
      ↔ ∃ r ∈ runes s, unicodeIs han r = true ∨ r ∈ punctuationClass := by
  simp only [HasChineseCharWith, hasChineseLoop_eq_any, List.any_eq_true, Bool.or_eq_true,
    classMatchString_encodeRune, decide_eq_true_eq]

theorem unicodeIs_of_lt (han : List (Nat × Nat × Nat)) (r : Nat)
    (hh : ∀ e ∈ han, 0x80 ≤ e.1) (hr : r < 0x80) : unicodeIs han r = false := by
  cases h : unicodeIs han r with
  | false => rfl
  | true =>
    obtain ⟨e, he, h1, _⟩ := (unicodeIs_iff han r).1 h
    have := hh e he
    omega

theorem flatMap_encodeRune_head (rs : List Nat) :
    rs.flatMap encodeRune = []
      ∨ ∃ (x : Byte) (b : GoString),
          rs.flatMap encodeRune = x :: b ∧ (x.val < 0x80 ∨ 0xBF < x.val) := by
  cases rs with
  | nil => exact Or.inl rfl
  | cons r rs =>
    obtain ⟨x, t, he, hx⟩ := encodeRune_head r
    exact Or.inr ⟨x, t ++ rs.flatMap encodeRune, by rw [List.flatMap_cons, he]; rfl, hx⟩

/-- The runes of the UTF-8 encoding of a sequence of valid runes are that
sequence. -/
theorem runes_flatMap_encodeRune (rs : List Nat)
    (h : ∀ r ∈ rs, r ≤ 0x10FFFF ∧ (r < 0xD800 ∨ 0xDFFF < r)) :
    runes (rs.flatMap encodeRune) = rs := by
  induction rs with
  | nil => rfl
  | cons r rs ih =>
    have hr := h r (List.mem_cons_self _ _)
    have ih2 := ih (fun x hx => h x (List.mem_cons_of_mem _ hx))
    rw [List.flatMap_cons]
    rcases flatMap_encodeRune_head rs with h0 | ⟨x, b, hxb, hx⟩
    · rw [h0] at ih2 ⊢
      rw [List.append_nil, runes_encodeRune r hr.1 hr.2, ← ih2]
      rfl
    · rw [hxb] at ih2 ⊢
      rw [runes_append_boundary _ _ _ hx, runes_encodeRune r hr.1 hr.2, ih2]
      rfl

/-! ### The line loop -/

theorem Index_single (s : GoString) (c : Byte) :
    Index s [c] = if c ∈ s then ((s.takeWhile (fun b => !(b == c))).length : Int) else -1 := by
  induction s with
  | nil => simp [Index]
  | cons x s ih =>
    by_cases hx : x = c
    · subst hx
      simp [Index, HasPrefix]
    · have hx2 : ¬ c = x := fun e => hx e.symm
      simp only [Index, HasPrefix, beq_iff_eq, hx, Bool.and_true, Bool.false_eq_true, if_false, ih,
        List.mem_cons, hx2, false_or, List.takeWhile_cons, Bool.not_eq_true', beq_eq_false_iff_ne,
        ne_eq, not_false_eq_true, if_true, List.length_cons, decide_False, Bool.not_false]
      by_cases hc : c ∈ s
      · simp only [hc, if_true]
        rw [if_neg (by omega)]
        push_cast
        rfl
      · simp [hc]

theorem take_takeWhile_length {α : Type} (p : α → Bool) (l : List α) :
    l.take (l.takeWhile p).length = l.takeWhile p := by
  have h := List.takeWhile_append_dropWhile p l
  generalize l.takeWhile p = a at h ⊢
  generalize l.dropWhile p = b at h
  subst h
  simp

theorem drop_takeWhile_length {α : Type} (p : α → Bool) (l : List α) :
    l.drop (l.takeWhile p).length = l.dropWhile p := by
  have h := List.takeWhile_append_dropWhile p l
  generalize l.takeWhile p = a at h ⊢
  generalize l.dropWhile p = b at h ⊢
  subst h
  simp

theorem mem_cutset_of_Trim_nil (s cutset : GoString) (h : Trim s cutset = []) :
    ∀ x ∈ s, x ∈ cutset := by
  unfold Trim TrimLeft TrimRight at h
  rw [List.dropWhile_eq_nil_iff] at h
  have h2 : ∀ x ∈ s.reverse.dropWhile (fun b => decide (b ∈ cutset)),
      (fun b => decide (b ∈ cutset)) x = true := fun x hx => h x (List.mem_reverse.2 hx)
  have h3 : s.reverse.dropWhile (fun b => decide (b ∈ cutset)) = [] := by
    have h4 := dropWhile_of_startsClean _ _
      (startsClean_dropWhile (fun b => decide (b ∈ cutset)) s.reverse)
    rw [← h4, List.dropWhile_eq_nil_iff]
    exact h2
  rw [List.dropWhile_eq_nil_iff] at h3
  intro x hx
  simpa using h3 x (List.mem_reverse.2 hx)

/-- The body of the line loop in terms of the text before and after the first
colon: a line without colon leaves the map as it is. -/
theorem parseLine_eq (m : FieldMap) (line : GoString) :
    parseLine m line =
      if (0x3A : Byte) ∈ line then
        mapSet m (Trim (keyText line) (lit " \r\n")) (Trim (valueText line) (lit " \r\n"))
      else m := by
  unfold parseLine
  by_cases hc : (0x3A : Byte) ∈ line
  · have hb : ¬ Trim line (lit " \r\n") = lit "" := by
      intro h
      have := mem_cutset_of_Trim_nil _ _ h _ hc
      revert this
      decide
    rw [if_neg hb, if_pos hc]
    simp only [lit_colon, Index_single, hc, if_true]
    rw [if_neg (by omega)]
    simp only [Int.toNat_ofNat, keyText, valueText, take_takeWhile_length, ← List.drop_drop,
      drop_takeWhile_length]
  · rw [if_neg hc]
    simp only [lit_colon, Index_single, hc, if_false, if_true, ite_self]

theorem lookup_filter_ne (m : FieldMap) (k k2 : GoString) (h : k2 ≠ k) :
    (m.filter (fun e => !(e.1 == k))).lookup k2 = m.lookup k2 := by
  induction m with
  | nil => rfl
  | cons e m ih =>
    obtain ⟨a, b⟩ := e
    by_cases ha : a = k
    · subst ha
      have : (k2 == a) = false := by simpa using h
      simp [List.filter, List.lookup, this, ih]
    · have ha2 : (a == k) = false := by simpa using ha
      simp only [List.filter, ha2, Bool.not_false, List.lookup, ih]

theorem lookup_mapSet (m : FieldMap) (k v k2 : GoString) :
    (mapSet m k v).lookup k2 = if k2 = k then some v else m.lookup k2 := by
  unfold mapSet
  by_cases h : k2 = k
  · subst h
    simp [List.lookup]
  · have h2 : (k2 == k) = false := by simpa using h
    simp only [List.lookup, h2, h, if_false]
    exact lookup_filter_ne m k k2 h

/-- The field map after the line loop: the value of the last line of the key,
or what the map held before the loop. -/
theorem lookup_foldl_parseLine (k : GoString) (lines : List GoString) :
    ∀ m : FieldMap, (lines.foldl parseLine m).lookup k =
      match (lines.filter (fun line => decide ((0x3A : Byte) ∈ line)
          && decide (Trim (keyText line) (lit " \r\n") = k))).getLast? with
      | some line => some (Trim (valueText line) (lit " \r\n"))
      | none => m.lookup k := by
  induction lines with
  | nil => intro m; rfl
  | cons l ls ih =>
    intro m
    rw [List.foldl_cons, ih (parseLine m l), parseLine_eq]
    by_cases hc : (0x3A : Byte) ∈ l
    · by_cases hk : Trim (keyText l) (lit " \r\n") = k
      · simp only [hc, hk, if_true, List.filter_cons, decide_True, Bool.and_self, lookup_mapSet]
        cases hf : List.filter (fun line => decide ((0x3A : Byte) ∈ line)
            && decide (Trim (keyText line) (lit " \r\n") = k)) ls with
        | nil => simp
        | cons x xs =>
          cases hg : (x :: xs).getLast? with
          | none => simp at hg
          | some y => rw [List.getLast?_cons_cons, hg]
      · have hk2 : ¬ k = Trim (keyText l) (lit " \r\n") := fun e => hk e.symm
        simp only [hc, hk, hk2, if_true, if_false, List.filter_cons, decide_True, decide_False,
          Bool.and_false, Bool.false_eq_true, lookup_mapSet]
    · simp only [hc, if_false, List.filter_cons, decide_False, Bool.false_and, Bool.false_eq_true]

/-! ### The scan -/

theorem LastIndex_of_not_mem (s : GoString) (c : Byte) (h : c ∉ s) : LastIndex s [c] = -1 := by
  induction s with
  | nil => simp [LastIndex]
  | cons x s ih =>
    have hx : ¬ x = c := fun e => h (e ▸ List.mem_cons_self _ _)
    have hs : c ∉ s := fun hm => h (List.mem_cons_of_mem _ hm)
    simp [LastIndex, ih hs, HasPrefix, hx]

theorem LastIndex_cons (x : Byte) (s substr : GoString) :
    LastIndex (x :: s) substr
      = if LastIndex s substr ≠ -1 then LastIndex s substr + 1
        else if HasPrefix (x :: s) substr then 0 else -1 := rfl

theorem LastIndex_append (pre t : GoString) (c : Byte) (h : c ∉ t) :
    LastIndex (pre ++ c :: t) [c] = (pre.length : Int) := by
  induction pre with
  | nil => simp [LastIndex, LastIndex_of_not_mem t c h, HasPrefix]
  | cons x pre ih =>
    rw [List.cons_append, LastIndex_cons, ih, if_pos (by omega), List.length_cons]
    push_cast
    rfl

theorem last_occurrence (s : GoString) (c : Byte) (h : c ∈ s) :
    ∃ pre t, s = pre ++ c :: t ∧ c ∉ t := by
  induction s with
  | nil => simp at h
  | cons x s ih =>
    by_cases hs : c ∈ s
    · obtain ⟨pre, t, e, ht⟩ := ih hs
      exact ⟨x :: pre, t, by rw [e]; rfl, ht⟩
    · have hx : c = x := by
        rcases List.mem_cons.1 h with e | e
        · exact e
        · exact absurd e hs
      subst hx
      exact ⟨[], s, rfl, hs⟩


theorem lit_dot : lit "." = [0x2E] := by decide

theorem lit_jar : lit ".jar" = [0x2E, 0x6A, 0x61, 0x72] := by decide

set_option maxRecDepth 4000 in
theorem lower_inv :
    ∀ c : Byte,
      ((if 0x41 ≤ c.val ∧ c.val ≤ 0x5A then c + 0x20 else c) = 0x2E ↔ c = 0x2E)
      ∧ ((if 0x41 ≤ c.val ∧ c.val ≤ 0x5A then c + 0x20 else c) = 0x6A ↔ (c = 0x6A ∨ c = 0x4A))
      ∧ ((if 0x41 ≤ c.val ∧ c.val ≤ 0x5A then c + 0x20 else c) = 0x61 ↔ (c = 0x61 ∨ c = 0x41))
      ∧ ((if 0x41 ≤ c.val ∧ c.val ≤ 0x5A then c + 0x20 else c) = 0x72 ↔ (c = 0x72 ∨ c = 0x52)) := by
  decide

/-- A string lowers to ".jar" exactly when it is a dot and the letters j, a, r
in either case, provided the Unicode case mapping does not lower a string with
a non-ASCII byte to ".jar". -/
theorem ToLower_eq_jar (f : GoString → GoString)
    (hf : ∀ s : GoString, s.all (fun c => decide (c.val < 0x80)) = false → f s ≠ lit ".jar")
    (s : GoString) :
    ToLower f s = lit ".jar" ↔
      ∃ d j a r, s = [d, j, a, r] ∧ d = 0x2E ∧ (j = 0x6A ∨ j = 0x4A) ∧ (a = 0x61 ∨ a = 0x41)
        ∧ (r = 0x72 ∨ r = 0x52) := by
  constructor
  · intro h
    unfold ToLower at h
    cases hall : s.all (fun c => decide (c.val < 0x80)) with
    | false =>
      rw [hall] at h
      exact absurd h (hf s hall)
    | true =>
      rw [hall, if_pos rfl, lit_jar] at h
      rcases s with _ | ⟨d, _ | ⟨j, _ | ⟨a, _ | ⟨r, _ | ⟨x, t⟩⟩⟩⟩⟩ <;> simp at h
      obtain ⟨h1, h2, h3, h4⟩ := h
      exact ⟨d, j, a, r, rfl, (lower_inv d).1.1 h1, (lower_inv j).2.1.1 h2,
        (lower_inv a).2.2.1.1 h3, (lower_inv r).2.2.2.1 h4⟩
  · rintro ⟨d, j, a, r, rfl, rfl, hj, ha, hr⟩
    unfold ToLower
    rcases hj with rfl | rfl <;> rcases ha with rfl | rfl <;> rcases hr with rfl | rfl <;>
      (rw [if_pos (by decide)]; decide)

theorem hasJarExtension_iff (p : GoString) :
    hasJarExtension p = true ↔
      ∃ pre d j a r, p = pre ++ [d, j, a, r] ∧ d = 0x2E ∧ (j = 0x6A ∨ j = 0x4A)
        ∧ (a = 0x61 ∨ a = 0x41) ∧ (r = 0x72 ∨ r = 0x52) := by
  constructor
  · intro h
    unfold hasJarExtension at h
    split at h
    · rename_i r a j d rest hrev
      simp only [Bool.and_eq_true, decide_eq_true_eq] at h
      refine ⟨rest.reverse, d, j, a, r, ?_, h.1.1.1, h.1.1.2, h.1.2, h.2⟩
      have := congrArg List.reverse hrev
      simpa using this
    · exact absurd h (by simp)
  · rintro ⟨pre, d, j, a, r, rfl, hd, hj, ha, hr⟩
    simp [hasJarExtension, hd, hj, ha, hr]

/-- The test of lines 152-160 accepts exactly the paths with the extension
`.jar` in either case. -/
theorem jar_test_iff (f : GoString → GoString)
    (hf : ∀ s : GoString, s.all (fun c => decide (c.val < 0x80)) = false → f s ≠ lit ".jar")
    (p : GoString) :
    (¬ LastIndex p (lit ".") = -1
        ∧ ¬ ToLower f (p.drop (LastIndex p (lit ".")).toNat) ≠ lit ".jar")
      ↔ hasJarExtension p = true := by
  rw [hasJarExtension_iff, lit_dot]
  constructor
  · rintro ⟨h1, h2⟩
    have hm : (0x2E : Byte) ∈ p := by
      by_contra hn
      exact h1 (LastIndex_of_not_mem p _ hn)
    obtain ⟨pre, t, rfl, ht⟩ := last_occurrence p _ hm
    rw [LastIndex_append pre t _ ht, Int.toNat_ofNat, List.drop_left', not_not,
      ToLower_eq_jar f hf] at h2
    obtain ⟨d, j, a, r, e, hd, hj, ha, hr⟩ := h2
    refine ⟨pre, d, j, a, r, by rw [e], hd, hj, ha, hr⟩
    rfl
  · rintro ⟨pre, d, j, a, r, rfl, rfl, hj, ha, hr⟩
    have ht : (0x2E : Byte) ∉ [j, a, r] := by
      rcases hj with rfl | rfl <;> rcases ha with rfl | rfl <;> rcases hr with rfl | rfl <;> decide
    rw [LastIndex_append pre [j, a, r] _ ht, Int.toNat_ofNat, List.drop_left' rfl, not_not,
      ToLower_eq_jar f hf]
    exact ⟨by omega, 0x2E, j, a, r, rfl, rfl, hj, ha, hr⟩

theorem visit_rows (h : Host) (rename : Bool) (st : Scan) (p : GoString)
    (hf : ∀ s : GoString, s.all (fun c => decide (c.val < 0x80)) = false →
      h.mapLower s ≠ lit ".jar") :
    (visit h rename st p).rows
      = st.rows ++ (if hasJarExtension p = true then [rowOf h p] else []) := by
  have hiff := jar_test_iff h.mapLower hf p
  unfold visit rowOf
  by_cases hj : hasJarExtension p = true
  · obtain ⟨h1, h2⟩ := hiff.2 hj
    simp only [h1, h2, if_false, hj, if_true]
    cases h.readJar p with
    | none => rfl
    | some g => cases rename <;> rfl
  · by_cases h1 : LastIndex p (lit ".") = -1
    · simp [h1, hj]
    · by_cases h2 : ToLower h.mapLower (p.drop (LastIndex p (lit ".")).toNat) ≠ lit ".jar"
      · have h3 : ¬ ToLower h.mapLower (p.drop (LastIndex p (lit ".")).toNat) = lit ".jar" := h2
        simp [h1, h3, hj]
      · exact absurd (hiff.1 ⟨h1, h2⟩) hj

theorem foldl_visit_rows (h : Host) (rename : Bool)
    (hf : ∀ s : GoString, s.all (fun c => decide (c.val < 0x80)) = false →
      h.mapLower s ≠ lit ".jar") (paths : List GoString) :
    ∀ st : Scan, (paths.foldl (visit h rename) st).rows
      = st.rows ++ (paths.filter hasJarExtension).map (rowOf h) := by
  induction paths with
  | nil => intro st; simp
  | cons p ps ih =>
    intro st
    rw [List.foldl_cons, ih, visit_rows h rename st p hf]
    by_cases hj : hasJarExtension p = true
    · simp [hj, List.filter_cons]
    · simp [hj, List.filter_cons]

/-! ## The claims -/

/-- C1: for every input string `s`, `NormalizationName s` contains no colon
(byte 0x3A), no question mark (0x3F) and no asterisk (0x2A). -/
theorem normalization_no_unsafe_char (s : GoString) :
    (0x3A : Byte) ∉ NormalizationName s ∧ (0x3F : Byte) ∉ NormalizationName s
      ∧ (0x2A : Byte) ∉ NormalizationName s := by
  rw [NormalizationName_eq]
  simp [List.mem_filter]

/-- C10 (counterexample): `NormalizationName` is not idempotent. For "a ?" the
trimming step sees the final question mark and keeps the space, the removal step
then deletes the question mark: the output "a " ends with a space, and
normalizing it again gives "a". -/
theorem normalization_not_idempotent :
    NormalizationName (lit "a ?") = lit "a "
      ∧ NormalizationName (NormalizationName (lit "a ?")) = lit "a"
      ∧ NormalizationName (NormalizationName (lit "a ?")) ≠ NormalizationName (lit "a ?") := by
  decide

/-- C10 (amended): for every string `s`, normalizing a normalized string only
trims it, so a third application changes nothing; when `s` has no question mark
and no asterisk, the output neither begins nor ends with a byte of the cutset
(space, CR, LF, backslash, colon) and `NormalizationName` is idempotent on `s`;
the output never contains one of the two key labels. -/
theorem normalization_idempotent_amended (s : GoString) :
    NormalizationName (NormalizationName s) = Trim (NormalizationName s) (lit " \r\n\\:")
      ∧ NormalizationName (NormalizationName (NormalizationName s))
          = NormalizationName (NormalizationName s)
      ∧ ((0x3F : Byte) ∉ s ∧ (0x2A : Byte) ∉ s →
          StartsClean (fun b => decide (b ∈ lit " \r\n\\:")) (NormalizationName s)
            ∧ EndsClean (fun b => decide (b ∈ lit " \r\n\\:")) (NormalizationName s)
            ∧ NormalizationName (NormalizationName s) = NormalizationName s)
      ∧ ¬ (lit "MIDlet-Name:" <:+: NormalizationName s)
      ∧ ¬ (lit "MIDlet-Description:" <:+: NormalizationName s) := by
  have hsafe := normalization_no_unsafe_char_aux s
  refine ⟨NormalizationName_twice s, ?_, ?_, ?_, ?_⟩
  · rw [NormalizationName_twice s]
    have m1 : (0x3A : Byte) ∉ Trim (NormalizationName s) (lit " \r\n\\:") :=
      fun h => hsafe.1 (mem_of_mem_Trim _ _ _ h)
    have m2 : (0x3F : Byte) ∉ Trim (NormalizationName s) (lit " \r\n\\:") :=
      fun h => hsafe.2.1 (mem_of_mem_Trim _ _ _ h)
    have m3 : (0x2A : Byte) ∉ Trim (NormalizationName s) (lit " \r\n\\:") :=
      fun h => hsafe.2.2 (mem_of_mem_Trim _ _ _ h)
    rw [NormalizationName_of_safe _ m1 m2 m3, Trim_idem]
  · rintro ⟨h2, h3⟩
    have hc := NormalizationName_clean s h2 h3
    exact ⟨hc.1, hc.2, by rw [NormalizationName_twice s, Trim_of_clean _ _ hc.1 hc.2]⟩
  · intro h
    exact hsafe.1 (h.subset colon_mem_nameLabel)
  · intro h
    exact hsafe.1 (h.subset colon_mem_descLabel)

/-- C10 (witness): the amended claim at "MIDlet-Name: a:b \\", an input without
question mark and asterisk. -/
theorem normalization_idempotent_amended_witness :
    ((0x3F : Byte) ∉ lit "MIDlet-Name: a:b \\" ∧ (0x2A : Byte) ∉ lit "MIDlet-Name: a:b \\")
      ∧ NormalizationName (NormalizationName (lit "MIDlet-Name: a:b \\"))
          = NormalizationName (lit "MIDlet-Name: a:b \\") :=
  ⟨by decide,
    ((normalization_idempotent_amended (lit "MIDlet-Name: a:b \\")).2.2.1 (by decide)).2.2⟩

/-- C8: for every field map the derived description is `NormalizationName` of
the map's `MIDlet-Description` value, the empty string when the key is absent;
two maps with the same `MIDlet-Description` value derive the same description
whatever their other fields; `NormalizationName ""` is `""` and a map without
the key derives the empty description. -/
theorem description_is_normalized_field (m m2 : FieldMap)
    (h : mapGet m (lit "MIDlet-Description") = mapGet m2 (lit "MIDlet-Description")) :
    (deriveGame m).MIDletDescription = NormalizationName (mapGet m (lit "MIDlet-Description"))
      ∧ (deriveGame m).MIDletDescription = (deriveGame m2).MIDletDescription
      ∧ NormalizationName (lit "") = lit ""
      ∧ (m.lookup (lit "MIDlet-Description") = none → (deriveGame m).MIDletDescription = lit "") := by
  refine ⟨rfl, ?_, by decide, ?_⟩
  · simp only [deriveGame, h]
  · intro hn
    simp only [deriveGame, mapGet, hn, Option.getD_none]
    decide

/-- C8 (witness): two maps with the description "a game" and different names. -/
theorem description_is_normalized_field_witness :
    (deriveGame [(lit "MIDlet-Name", lit "Foo"), (lit "MIDlet-Description", lit "a game")]).MIDletDescription
      = (deriveGame [(lit "MIDlet-Description", lit "a game"), (lit "MIDlet-1", lit "中文,x")]).MIDletDescription :=
  (description_is_normalized_field
    [(lit "MIDlet-Name", lit "Foo"), (lit "MIDlet-Description", lit "a game")]
    [(lit "MIDlet-Description", lit "a game"), (lit "MIDlet-1", lit "中文,x")] (by decide)).2.1

/-- C3: for every field map whose normalized `MIDlet-Name` has a target-script
character, the derived name is that normalized value, whatever `MIDlet-1` is. -/
theorem name_is_primary_when_chinese (m : FieldMap)
    (h : HasChineseChar (NormalizationName (mapGet m (lit "MIDlet-Name"))) = true) :
    deriveName m = NormalizationName (mapGet m (lit "MIDlet-Name"))
      ∧ (deriveGame m).MIDletName = NormalizationName (mapGet m (lit "MIDlet-Name")) := by
  have e : deriveName m = NormalizationName (mapGet m (lit "MIDlet-Name")) := by
    simp only [deriveName, h, Bool.not_true, Bool.false_eq_true, if_false]
  exact ⟨e, e⟩

/-- C3 (witness): the map with `MIDlet-Name` = "中文游戏" derives the name
"中文游戏", here beside a `MIDlet-1` value that also has Chinese script. -/
theorem name_is_primary_when_chinese_witness :
    HasChineseChar (NormalizationName
        (mapGet [(lit "MIDlet-Name", lit "中文游戏"), (lit "MIDlet-1", lit "别名,a.B")]
          (lit "MIDlet-Name"))) = true
      ∧ deriveName [(lit "MIDlet-Name", lit "中文游戏"), (lit "MIDlet-1", lit "别名,a.B")]
          = lit "中文游戏" :=
  ⟨by decide,
    (name_is_primary_when_chinese
      [(lit "MIDlet-Name", lit "中文游戏"), (lit "MIDlet-1", lit "别名,a.B")] (by decide)).1.trans
      (by decide)⟩

/-- C2 (counterexample): for `MIDlet-Name` = "Foo" and `MIDlet-1` =
"com.x.Y, 中文名,1.0" the derived name is "Foo", not "中文名": only the first
segment of `MIDlet-1`, here "com.x.Y", is consulted. -/
theorem fallback_example_derives_primary :
    deriveName [(lit "MIDlet-Name", lit "Foo"), (lit "MIDlet-1", lit "com.x.Y, 中文名,1.0")]
      ≠ lit "中文名" := by
  decide

/-- C2 (amended): for `MIDlet-Name` = "Foo" and `MIDlet-1` = "com.x.Y, 中文名,1.0"
the derived name is "Foo", because the first segment "com.x.Y" of `MIDlet-1` has
no target-script character; when the Chinese name is the first segment, as in
`MIDlet-1` = " 中文名,com.x.Y,1.0", the derived name falls back to "中文名". The
manifest text of the example, parsed by the line loop, also derives "Foo". -/
theorem fallback_uses_first_segment :
    deriveName [(lit "MIDlet-Name", lit "Foo"), (lit "MIDlet-1", lit "com.x.Y, 中文名,1.0")]
        = lit "Foo"
      ∧ deriveName [(lit "MIDlet-Name", lit "Foo"), (lit "MIDlet-1", lit " 中文名,com.x.Y,1.0")]
        = lit "中文名"
      ∧ deriveName (parseManifest (lit "MIDlet-Name: Foo\nMIDlet-1: com.x.Y, 中文名,1.0\n"))
        = lit "Foo" := by
  decide

/-- C9 (counterexample): for `MIDlet-Name` = "Foo" and `MIDlet-1` = "中 ?" the code
derives "中" while the algorithm of the specification derives "中 ": the single
normalization trims before it deletes the question mark and leaves the space. -/
theorem name_differs_from_spec :
    deriveName [(lit "MIDlet-Name", lit "Foo"), (lit "MIDlet-1", lit "中 ?")] = lit "中"
      ∧ specDeriveName [(lit "MIDlet-Name", lit "Foo"), (lit "MIDlet-1", lit "中 ?")] = lit "中 "
      ∧ deriveName [(lit "MIDlet-Name", lit "Foo"), (lit "MIDlet-1", lit "中 ?")]
          ≠ specDeriveName [(lit "MIDlet-Name", lit "Foo"), (lit "MIDlet-1", lit "中 ?")] := by
  decide

/-- C9 (amended): for every field map the code and the specified algorithm
take the fallback in the same cases; when neither takes it both derive the
normalized `MIDlet-Name`, and when they take it the name of the code is the
specified name with the bytes of the cutset trimmed once more from both ends.
The two names are equal whenever the raw first segment of `MIDlet-1` has no
question mark and no asterisk. -/
theorem name_refines_spec_amended (m : FieldMap) :
    deriveName m =
        (if !HasChineseChar (NormalizationName (mapGet m (lit "MIDlet-Name")))
            && HasChineseChar
              (NormalizationName ((Split (mapGet m (lit "MIDlet-1")) (lit ",")).headD []))
          then Trim (specDeriveName m) (lit " \r\n\\:") else specDeriveName m)
      ∧ ((0x3F : Byte) ∉ (Split (mapGet m (lit "MIDlet-1")) (lit ",")).headD []
          ∧ (0x2A : Byte) ∉ (Split (mapGet m (lit "MIDlet-1")) (lit ",")).headD []
          → deriveName m = specDeriveName m) := by
  have h := deriveName_eq m
  have hs : specDeriveName m =
      if !HasChineseChar (NormalizationName (mapGet m (lit "MIDlet-Name")))
          && HasChineseChar (NormalizationName ((Split (mapGet m (lit "MIDlet-1")) (lit ",")).headD []))
      then NormalizationName ((Split (mapGet m (lit "MIDlet-1")) (lit ",")).headD [])
      else NormalizationName (mapGet m (lit "MIDlet-Name")) := rfl
  generalize (!HasChineseChar (NormalizationName (mapGet m (lit "MIDlet-Name")))
      && HasChineseChar (NormalizationName ((Split (mapGet m (lit "MIDlet-1")) (lit ",")).headD [])))
    = c at h hs ⊢
  constructor
  · rw [h, hs]
    cases c <;> simp only [if_true, if_false, Bool.false_eq_true]
  · rintro ⟨h2, h3⟩
    rw [h, hs]
    have hc := NormalizationName_clean _ h2 h3
    rw [Trim_of_clean _ _ hc.1 hc.2]

/-- C9 (witness): a `MIDlet-1` value whose first segment " 中文:名 " has no
question mark and no asterisk; both derive "中文名". -/
theorem name_refines_spec_amended_witness :
    deriveName [(lit "MIDlet-Name", lit "Foo"), (lit "MIDlet-1", lit " 中文:名 ,a.B,*")]
      = specDeriveName [(lit "MIDlet-Name", lit "Foo"), (lit "MIDlet-1", lit " 中文:名 ,a.B,*")] :=
  (name_refines_spec_amended
    [(lit "MIDlet-Name", lit "Foo"), (lit "MIDlet-1", lit " 中文:名 ,a.B,*")]).2 (by decide)

/-- C4: for every string `s`, and whatever range table `han` the toolchain has as
`unicode.Scripts["Han"]`, `HasChineseChar` is true exactly when one of the runes
the `range` loop yields from `s` lies in a range of the Han table or is one of
the twelve marks U+3002, U+FF1B, U+FF0C, U+FF1A, U+201C, U+201D, U+FF08, U+FF09,
U+3001, U+FF1F, U+300A, U+300B. These runes are the code points of `s`: when
`s` is the UTF-8 encoding of a sequence of valid runes, they are that sequence.
Hence the detector is false for every string of ASCII bytes (no range of a Han
table starts below U+0080), and true for every string that contains the
encoding of a rune of the Han table (a CJK ideograph) or of one of the twelve
marks, whatever bytes surround it. `HasChineseChar` of the worked examples is
the detector with the table of Unicode 15.0.0. -/
theorem detector_characterization (han : List (Nat × Nat × Nat)) (s : GoString) :
    (HasChineseCharWith han s = true
        ↔ ∃ r ∈ runes s, (∃ e ∈ han, e.1 ≤ r ∧ r ≤ e.2.1 ∧ (r - e.1) % e.2.2 = 0)
            ∨ r ∈ [0x3002, 0xFF1B, 0xFF0C, 0xFF1A, 0x201C, 0x201D, 0xFF08, 0xFF09, 0x3001,
                0xFF1F, 0x300A, 0x300B])
      ∧ (∀ rs : List Nat, (∀ r ∈ rs, r ≤ 0x10FFFF ∧ (r < 0xD800 ∨ 0xDFFF < r)) →
          s = rs.flatMap encodeRune → runes s = rs)
      ∧ ((∀ e ∈ han, 0x80 ≤ e.1) → (∀ b ∈ s, b.val < 0x80) → HasChineseCharWith han s = false)
      ∧ (∀ (pre post : GoString) (r : Nat), r ≤ 0x10FFFF ∧ (r < 0xD800 ∨ 0xDFFF < r) →
          ((∃ e ∈ han, e.1 ≤ r ∧ r ≤ e.2.1 ∧ (r - e.1) % e.2.2 = 0)
            ∨ r ∈ [0x3002, 0xFF1B, 0xFF0C, 0xFF1A, 0x201C, 0x201D, 0xFF08, 0xFF09, 0x3001,
                0xFF1F, 0x300A, 0x300B]) →
          s = pre ++ encodeRune r ++ post → HasChineseCharWith han s = true)
      ∧ HasChineseChar s = HasChineseCharWith unicodeHan s := by
  have hiff : HasChineseCharWith han s = true
      ↔ ∃ r ∈ runes s, (∃ e ∈ han, e.1 ≤ r ∧ r ≤ e.2.1 ∧ (r - e.1) % e.2.2 = 0)
          ∨ r ∈ [0x3002, 0xFF1B, 0xFF0C, 0xFF1A, 0x201C, 0x201D, 0xFF08, 0xFF09, 0x3001,
              0xFF1F, 0x300A, 0x300B] := by
    rw [HasChineseCharWith_iff]
    constructor
    · rintro ⟨r, hr, h⟩
      exact ⟨r, hr, h.imp (unicodeIs_iff han r).1 (mem_punctuationClass_iff r).1⟩
    · rintro ⟨r, hr, h⟩
      exact ⟨r, hr, h.imp (unicodeIs_iff han r).2 (mem_punctuationClass_iff r).2⟩
  refine ⟨hiff, ?_, ?_, ?_, rfl⟩
  · intro rs hrs hs
    rw [hs, runes_flatMap_encodeRune rs hrs]
  · intro hh h
    cases hc : HasChineseCharWith han s with
    | false => rfl
    | true =>
      obtain ⟨r, hr, ht⟩ := (HasChineseCharWith_iff han s).1 hc
      rw [runes_ascii s h] at hr
      obtain ⟨b, hb, rfl⟩ := List.mem_map.1 hr
      have hb2 := h b hb
      rcases ht with ht | ht
      · rw [unicodeIs_of_lt han b.val hh hb2] at ht
        cases ht
      · have := punctuation_lower b.val ht
        omega
  · intro pre post r hv hr hs
    subst hs
    exact hiff.2 ⟨r, mem_runes_of_encoded pre post r hv.1 hv.2, hr⟩

/-- C4 (witness): with the table of Unicode 15.0.0, an ASCII string with ASCII
punctuation has no target-script character; a string with the ideograph U+4E2D,
one with the full-width comma U+FF0C and one with the bracket U+300B have one;
the runes of "a中，" are U+0061, U+4E2D, U+FF0C. -/
theorem detector_characterization_witness :
    HasChineseChar (lit "abc, :;()?") = false
      ∧ HasChineseChar (lit "a中b") = true
      ∧ HasChineseChar (lit "a，b") = true
      ∧ HasChineseChar (lit "《a》") = true
      ∧ runes (lit "a中，") = [0x61, 0x4E2D, 0xFF0C] :=
  ⟨(detector_characterization unicodeHan (lit "abc, :;()?")).2.2.1 (by decide)
      (fun b hb => of_decide_eq_true
        (List.all_eq_true.1
          (by decide : (lit "abc, :;()?").all (fun b => decide (b.val < 0x80)) = true) b hb)),
    (detector_characterization unicodeHan (lit "a中b")).2.2.2.1 (lit "a") (lit "b") 0x4E2D
      (by decide) (Or.inl ⟨(0x4e00, 0x9fff, 1), by decide, by decide⟩) (by decide),
    (detector_characterization unicodeHan (lit "a，b")).2.2.2.1 (lit "a") (lit "b") 0xFF0C
      (by decide) (Or.inr (by decide)) (by decide),
    (detector_characterization unicodeHan (lit "《a》")).2.2.2.1 (lit "《a") (lit "") 0x300B
      (by decide) (Or.inr (by decide)) (by decide),
    (detector_characterization unicodeHan (lit "a中，")).2.1 [0x61, 0x4E2D, 0xFF0C]
      (by decide) (by decide)⟩

/-- C5: for every manifest text and every key `k`, the field map built by the
line loop maps `k` to the trimmed text after the first colon of the last line,
among the lines of the split on the newline byte, that has a colon and whose
text before the first colon trims to `k`; `k` is absent when there is no such
line, and a line without colon leaves the map unchanged. -/
theorem field_map_last_line_wins (content k : GoString) :
    (parseManifest content).lookup k
        = (linesOfKey content k).getLast?.map (fun line => Trim (valueText line) (lit " \r\n"))
      ∧ (linesOfKey content k = [] → (parseManifest content).lookup k = none)
      ∧ (∀ (m : FieldMap) (line : GoString), (0x3A : Byte) ∉ line → parseLine m line = m) := by
  have h : (parseManifest content).lookup k
      = (linesOfKey content k).getLast?.map (fun line => Trim (valueText line) (lit " \r\n")) := by
    unfold parseManifest linesOfKey
    rw [lookup_foldl_parseLine]
    cases (List.filter (fun line => decide ((0x3A : Byte) ∈ line)
      && decide (Trim (keyText line) (lit " \r\n") = k)) (Split content (lit "\n"))).getLast? <;> rfl
  refine ⟨h, ?_, ?_⟩
  · intro hn
    rw [h, hn]
    rfl
  · intro m line hc
    rw [parseLine_eq, if_neg hc]

/-- C5 (witness): a manifest with two lines for `MIDlet-Name`, a line without
colon and CR LF line ends; the later line gives the value. -/
theorem field_map_last_line_wins_witness :
    (parseManifest (lit "MIDlet-Name: Foo\r\nno colon here\r\n MIDlet-Name :Bar: x \r\n")).lookup
        (lit "MIDlet-Name") = some (lit "Bar: x")
      ∧ (parseManifest (lit "MIDlet-Name: Foo\r\nno colon here\r\n MIDlet-Name :Bar: x \r\n")).lookup
        (lit "MIDlet-1") = none :=
  ⟨(field_map_last_line_wins
      (lit "MIDlet-Name: Foo\r\nno colon here\r\n MIDlet-Name :Bar: x \r\n")
      (lit "MIDlet-Name")).1.trans (by decide),
    (field_map_last_line_wins
      (lit "MIDlet-Name: Foo\r\nno colon here\r\n MIDlet-Name :Bar: x \r\n")
      (lit "MIDlet-1")).2.1 (by decide)⟩

/-- C6: with the manifest reader an arbitrary function from path to optional
record, and a case mapping that lowers no string with a non-ASCII byte to
".jar", the rows written after the header are, for every list of paths the
walker yields, one row for each path with the extension `.jar` in either case,
in the order of the walk: the path, the error marker and an empty description
when the reader gives no record, the path, the name and the description
otherwise. A path without record does not stop the scan. -/
theorem report_rows (h : Host) (rename : Bool) (paths : List GoString)
    (hf : ∀ s : GoString, s.all (fun c => decide (c.val < 0x80)) = false →
      h.mapLower s ≠ lit ".jar") :
    (scanFiles h rename paths).rows = (paths.filter hasJarExtension).map (rowOf h) := by
  unfold scanFiles
  rw [foldl_visit_rows h rename hf]
  rfl

/-- C6 (witness): a corrupt archive, a text file, an archive without manifest
and a valid archive with an upper-case extension give exactly three rows, in
the order of the walk, the last one with the record. -/
theorem report_rows_witness :
    (scanFiles exampleHost true
        [lit "a/bad.jar", lit "a/readme.txt", lit "a/empty.jar", lit "a/good.JAR"]).rows
      = [[lit "a/bad.jar", errorMarker, lit ""], [lit "a/empty.jar", errorMarker, lit ""],
          [lit "a/good.JAR", lit "游戏", lit "fun"]] :=
  (report_rows exampleHost true
    [lit "a/bad.jar", lit "a/readme.txt", lit "a/empty.jar", lit "a/good.JAR"]
    (fun s hs e => by
      have e2 : s = lit ".jar" := e
      rw [e2] at hs
      revert hs
      decide)).trans (by decide)

/-- C7 (the code at the failing input): the manifest line `MIDlet-Name: ../up`
derives the name "../up", which keeps its separator; with the rename option the
scan asks to rename "a/up.jar" to "a/../up.jar", whose final component is
"up.jar" and not the name followed by ".jar": the target is outside the
directory "a". For every directory the final component of the target of this
name is "up.jar". -/
theorem rename_target_leaves_directory :
    (deriveGame (parseManifest (lit "MIDlet-Name: ../up\r\n"))).MIDletName = lit "../up"
      ∧ (0x2F : Byte) ∈ NormalizationName (lit "../up")
      ∧ (scanFiles exampleHost true [lit "a/up.jar"]).renames
          = [(lit "a/up.jar", lit "a/../up.jar")]
      ∧ lastComponent 0x2F (lit "a/../up.jar") = lit "up.jar"
      ∧ lastComponent 0x2F (lit "a/../up.jar") ≠ lit "../up" ++ lit ".jar"
      ∧ ∀ dir : GoString,
          lastComponent 0x2F (renameTarget dir 0x2F (NormalizationName (lit "../up")))
            = lit "up.jar" := by
  refine ⟨by decide, by decide, by decide, by decide, by decide, ?_⟩
  intro dir
  have h1 : NormalizationName (lit "../up") = [0x2E, 0x2E, 0x2F, 0x75, 0x70] := by decide
  have h2 : lit ".jar" = [0x2E, 0x6A, 0x61, 0x72] := by decide
  have h3 : lit "up.jar" = [0x75, 0x70, 0x2E, 0x6A, 0x61, 0x72] := by decide
  rw [h1, h3]
  simp [renameTarget, lastComponent, h2, List.takeWhile]

end JavaGameRename
